import Mathlib

/-!
Shallow embedding of the FIFO tax-lot engine of the portfolio tracker:
the lot ledger (`src/repos/stock_lots_repo.py`), the sell-transaction flow
(`src/repos/stock_repo.py`) and the NBP exchange-rate provider
(`src/services/nbp.py`).

Conventions of the embedding:
* SQL tables become Lean lists of records inside a `DB` structure; a SQL
  `ORDER BY purchase_date, lot_number` becomes an insertion sort by the
  corresponding total order; `INSERT` appends; `UPDATE ... WHERE id = ?`
  maps a replacement function over the table.
* Python `float` columns are modelled as exact rationals `ℚ`; quantities
  (SQLite INTEGER) as `Int`; autoincrement rowids as `max + 1`.
* a Python function that raises `ValueError` becomes a function returning
  `Except` together with the (possibly mutated) database state.
-/

namespace CC

/-- Lot status as stored in the `status` column of `stock_lots`. -/
inductive LotStatus where
  | OPEN
  | PARTIAL
  | CLOSED
deriving DecidableEq

/-- One row of the `stock_lots` table. -/
structure Lot where
  id : Nat
  stock_id : Nat
  transaction_id : Nat
  lot_number : Nat
  purchase_date : Int
  quantity : Int
  remaining_quantity : Int
  purchase_price_usd : ℚ
  purchase_price_pln : ℚ
  commission_usd : ℚ
  commission_pln : ℚ
  usd_pln_rate : ℚ
  status : LotStatus
deriving DecidableEq

/-- One row of the `stock_lot_sales` table (a sale allocation). -/
structure SaleAlloc where
  lot_id : Nat
  sale_transaction_id : Nat
  quantity_sold : Int
  sale_date : Int
  sale_price_usd : ℚ
  sale_price_pln : ℚ
  gain_loss_usd : ℚ
  gain_loss_pln : ℚ
  tax_due_pln : ℚ
  usd_pln_rate : ℚ
deriving DecidableEq

/-- One row of the `option_reservations` table. -/
structure Reservation where
  option_id : Nat
  lot_id : Nat
  reserved_quantity : Int
deriving DecidableEq

/-- The part of a `stock_transactions` row the sell flow touches. -/
structure StockTx where
  id : Nat
  stock_id : Nat
  quantity : Int
deriving DecidableEq

/-- The database state seen by the lot engine. -/
structure DB where
  lots : List Lot
  lot_sales : List SaleAlloc
  reservations : List Reservation
  transactions : List StockTx
deriving DecidableEq

/-- Next SQLite rowid: one more than the largest id in use. -/
def nextId (ids : List Nat) : Nat := ids.foldr max 0 + 1

/-- The FIFO order of `ORDER BY purchase_date, lot_number`. -/
def lotLe (a b : Lot) : Prop :=
  a.purchase_date < b.purchase_date ∨
    (a.purchase_date = b.purchase_date ∧ a.lot_number ≤ b.lot_number)

instance : DecidableRel lotLe := fun a b => by
  unfold lotLe; infer_instance

instance : IsTotal Lot lotLe := by
  constructor
  intro a b
  unfold lotLe
  rcases lt_trichotomy a.purchase_date b.purchase_date with h | h | h
  · exact Or.inl (Or.inl h)
  · rcases Nat.le_total a.lot_number b.lot_number with h2 | h2
    · exact Or.inl (Or.inr ⟨h, h2⟩)
    · exact Or.inr (Or.inr ⟨h.symm, h2⟩)
  · exact Or.inr (Or.inl h)

instance : IsTrans Lot lotLe := by
  constructor
  intro a b c hab hbc
  unfold lotLe at *
  rcases hab with h1 | ⟨h1, h1n⟩
  · rcases hbc with h2 | ⟨h2, _⟩
    · exact Or.inl (h1.trans h2)
    · exact Or.inl (h2 ▸ h1)
  · rcases hbc with h2 | ⟨h2, h2n⟩
    · exact Or.inl (h1 ▸ h2)
    · exact Or.inr ⟨h1.trans h2, h1n.trans h2n⟩

/-- Rows returned by `WHERE stock_id = ? AND remaining_quantity > 0`. -/
def openLotsOf (db : DB) (sid : Nat) : List Lot :=
  db.lots.filter (fun l => l.stock_id == sid && decide (0 < l.remaining_quantity))

/-- The open lots of a security in FIFO order: the query of
`process_sale_fifo` and `get_fifo_preview`
(`ORDER BY purchase_date, lot_number`). -/
def fifoOpenLots (db : DB) (sid : Nat) : List Lot :=
  List.insertionSort lotLe (openLotsOf db sid)

/-- Sum of `remaining_quantity` over a lot list. -/
def totalRemaining (ls : List Lot) : Int :=
  (ls.map Lot.remaining_quantity).sum

/-- Sum of `reserved_quantity` over the reservations of one lot
(the `COALESCE(SUM(opt_res.reserved_quantity), 0)` aggregate). -/
def reservedSum (rs : List Reservation) (lotId : Nat) : Int :=
  ((rs.filter (fun r => r.lot_id == lotId)).map Reservation.reserved_quantity).sum

/-- Sum of `quantity_sold` over the allocations of one lot. -/
def allocSumFor (as : List SaleAlloc) (lotId : Nat) : Int :=
  ((as.filter (fun a => a.lot_id == lotId)).map SaleAlloc.quantity_sold).sum

/-- Total quantity sold across a list of allocations. -/
def allocQtySum (as : List SaleAlloc) : Int :=
  (as.map SaleAlloc.quantity_sold).sum

/-- The `stock_lot_sales` row inserted for one lot inside the FIFO loop of
`process_sale_fifo` (lines 122-139 of `stock_lots_repo.py`). -/
def mkAlloc (saleTx : Nat) (saleDate : Int) (salePriceUsd rate : ℚ)
    (l : Lot) (q : Int) : SaleAlloc :=
  let salePricePln := salePriceUsd * rate
  let glUsd := (salePriceUsd - l.purchase_price_usd) * (q : ℚ)
  let glPln := (salePricePln - l.purchase_price_pln) * (q : ℚ)
  { lot_id := l.id
    sale_transaction_id := saleTx
    quantity_sold := q
    sale_date := saleDate
    sale_price_usd := salePriceUsd
    sale_price_pln := salePricePln
    gain_loss_usd := glUsd
    gain_loss_pln := glPln
    tax_due_pln := max 0 (glPln * 0.19)
    usd_pln_rate := rate }

/-- An `UPDATE stock_lots SET remaining_quantity = ?, status = ? WHERE id = ?`
statement issued during the FIFO loop. -/
structure LotUpdate where
  lot_id : Nat
  remaining_quantity : Int
  status : LotStatus
deriving DecidableEq

/-- The FIFO consumption loop of `process_sale_fifo`: walks the FIFO-ordered
open lots, consuming `min(remaining_to_sell, lot.remaining_quantity)` from
each, and collects the inserted allocations and the lot updates. -/
def saleWalk (saleTx : Nat) (saleDate : Int) (salePriceUsd rate : ℚ) :
    Int → List Lot → List SaleAlloc × List LotUpdate
  | _, [] => ([], [])
  | toSell, l :: rest =>
    if toSell ≤ 0 then ([], [])
    else
      let q := min toSell l.remaining_quantity
      let newRem := l.remaining_quantity - q
      let res := saleWalk saleTx saleDate salePriceUsd rate (toSell - q) rest
      (mkAlloc saleTx saleDate salePriceUsd rate l q :: res.1,
       ⟨l.id, newRem, if newRem = 0 then LotStatus.CLOSED else LotStatus.PARTIAL⟩ :: res.2)

/-- Effect of one `UPDATE ... WHERE id = ?` on one row. -/
def applyUpdateTo (u : LotUpdate) (l : Lot) : Lot :=
  if l.id = u.lot_id then
    { l with remaining_quantity := u.remaining_quantity, status := u.status }
  else l

/-- Effect of a sequence of updates on the `stock_lots` table. -/
def applyUpdates (lots : List Lot) (us : List LotUpdate) : List Lot :=
  us.foldl (fun ls u => ls.map (applyUpdateTo u)) lots

/-- Effect of a sequence of updates on one row. -/
def applyLot (us : List LotUpdate) (l : Lot) : Lot :=
  us.foldl (fun l u => applyUpdateTo u l) l

/-- Errors raised (as `ValueError`) by `process_sale_fifo`. -/
inductive SaleError where
  | noOpenLots
  | insufficientShares (available needed : Int)
deriving DecidableEq

/-- `StockLotsRepository.process_sale_fifo` (lines 82-170): fetch the open
lots in FIFO order, raise if there are none or if their total remaining
quantity is below the requested quantity, otherwise run the FIFO loop,
recording one allocation and one lot update per lot touched. -/
def process_sale_fifo (db : DB) (sid saleTx : Nat) (qty : Int)
    (salePriceUsd : ℚ) (saleDate : Int) (rate : ℚ) :
    Except SaleError (List SaleAlloc) × DB :=
  let available := fifoOpenLots db sid
  if available = [] then (Except.error SaleError.noOpenLots, db)
  else
    let total := totalRemaining available
    if total < qty then (Except.error (SaleError.insufficientShares total qty), db)
    else
      let w := saleWalk saleTx saleDate salePriceUsd rate qty available
      (Except.ok w.1,
       { db with lots := applyUpdates db.lots w.2, lot_sales := db.lot_sales ++ w.1 })

/-- One entry of the list returned by `get_fifo_preview`. -/
structure PreviewRow where
  lot_id : Nat
  lot_number : Nat
  purchase_date : Int
  quantity_to_sell : Int
  purchase_price_usd : ℚ
  purchase_price_pln : ℚ
  remaining_after_sale : Int
deriving DecidableEq

/-- The read-only FIFO walk of `get_fifo_preview`. -/
def previewWalk : Int → List Lot → List PreviewRow
  | _, [] => []
  | toSell, l :: rest =>
    if toSell ≤ 0 then []
    else
      let q := min toSell l.remaining_quantity
      { lot_id := l.id
        lot_number := l.lot_number
        purchase_date := l.purchase_date
        quantity_to_sell := q
        purchase_price_usd := l.purchase_price_usd
        purchase_price_pln := l.purchase_price_pln
        remaining_after_sale := l.remaining_quantity - q } :: previewWalk (toSell - q) rest

/-- `StockLotsRepository.get_fifo_preview` (lines 280-313): the same FIFO
walk as `process_sale_fifo` but with no mutation and no sufficiency check. -/
def get_fifo_preview (db : DB) (sid : Nat) (qty : Int) : List PreviewRow :=
  previewWalk qty (fifoOpenLots db sid)

/-- Next lot number for a security:
`COALESCE(MAX(lot_number), 0) + 1` over its lots. -/
def nextLotNumber (db : DB) (sid : Nat) : Nat :=
  ((db.lots.filter (fun l => l.stock_id == sid)).map Lot.lot_number).foldr max 0 + 1

/-- `StockLotsRepository.create_lot_from_purchase` (lines 46-79): computes
the next lot number, converts prices to PLN with the supplied rate, and
inserts one `stock_lots` row with `remaining_quantity = quantity` and
status `OPEN`. The source performs no validation of its inputs. -/
def create_lot_from_purchase (db : DB) (sid txId : Nat) (qty : Int)
    (priceUsd commissionUsd : ℚ) (purchaseDate : Int) (rate : ℚ) : Nat × DB :=
  let lotId := nextId (db.lots.map Lot.id)
  let l : Lot :=
    { id := lotId
      stock_id := sid
      transaction_id := txId
      lot_number := nextLotNumber db sid
      purchase_date := purchaseDate
      quantity := qty
      remaining_quantity := qty
      purchase_price_usd := priceUsd
      purchase_price_pln := priceUsd * rate
      commission_usd := commissionUsd
      commission_pln := commissionUsd * rate
      usd_pln_rate := rate
      status := LotStatus.OPEN }
  (lotId, { db with lots := db.lots ++ [l] })

/-- Per-lot `available_for_sale` column of `check_shares_available_for_sale`:
`remaining_quantity` minus the lot's reserved sum. -/
def availableForSale (db : DB) (l : Lot) : Int :=
  l.remaining_quantity - reservedSum db.reservations l.id

/-- The `total_available` of `check_shares_available_for_sale` (lines
402-429): sum of the positive per-lot `available_for_sale` values over the
open lots of the security. -/
def sellableTotal (db : DB) (sid : Nat) : Int :=
  (((fifoOpenLots db sid).map (fun l => availableForSale db l)).filter
    (fun q => decide (0 < q))).sum

/-- The `can_sell` flag of `check_shares_available_for_sale`. -/
def check_can_sell (db : DB) (sid : Nat) (qty : Int) : Bool :=
  qty ≤ sellableTotal db sid

/-- The SELL branch of `StockRepository.add_transaction` (lines 123-163):
insert the transaction row, run `check_shares_available_for_sale`, delete
the row and raise if the check fails, otherwise run `process_sale_fifo`
(deleting the row and re-raising on its failure). -/
def add_sell_transaction (db : DB) (sid : Nat) (qty : Int) (priceUsd : ℚ)
    (txDate : Int) (rate : ℚ) : Except SaleError Nat × DB :=
  let txId := nextId (db.transactions.map StockTx.id)
  let db1 : DB := { db with transactions := db.transactions ++ [⟨txId, sid, qty⟩] }
  if check_can_sell db1 sid qty then
    match process_sale_fifo db1 sid txId qty priceUsd txDate rate with
    | (Except.ok _, db2) => (Except.ok txId, db2)
    | (Except.error e, db2) =>
      (Except.error e,
       { db2 with transactions := db2.transactions.filter (fun t => t.id != txId) })
  else
    (Except.error (SaleError.insufficientShares (sellableTotal db1 sid) qty),
     { db1 with transactions := db1.transactions.filter (fun t => t.id != txId) })

/-- FIFO order on the grouped rows of the reservation query. -/
def lotRowLe (a b : Lot × Int) : Prop := lotLe a.1 b.1

instance : DecidableRel lotRowLe := fun a b => by
  unfold lotRowLe; infer_instance

/-- Rows of the reservation query of `reserve_shares_for_option` (lines
343-358): the open lots of the security, each with its `already_reserved`
aggregate, restricted by the `HAVING` clause to those with free shares,
in FIFO order. -/
def reservableLots (db : DB) (sid : Nat) : List (Lot × Int) :=
  List.insertionSort lotRowLe
    (((openLotsOf db sid).map (fun l => (l, reservedSum db.reservations l.id))).filter
      (fun p => decide (0 < p.1.remaining_quantity - p.2)))

/-- The reservation loop of `reserve_shares_for_option`: consumes
`min(remaining_to_reserve, remaining_quantity - already_reserved)` from
each row, inserting one `option_reservations` row per lot touched. -/
def reserveWalk (optId : Nat) : Int → List (Lot × Int) → List Reservation
  | _, [] => []
  | toRes, (l, ar) :: rest =>
    if toRes ≤ 0 then []
    else
      let q := min toRes (l.remaining_quantity - ar)
      ⟨optId, l.id, q⟩ :: reserveWalk optId (toRes - q) rest

/-- Errors raised (as `ValueError`) by `reserve_shares_for_option`. -/
inductive ReserveError where
  | noReservableShares
  | insufficientShares (available needed : Int)
deriving DecidableEq

/-- `StockLotsRepository.reserve_shares_for_option` (lines 338-400): fetch
the reservable rows, raise if there are none or if the total free quantity
is below the request, otherwise insert the reservations FIFO. -/
def reserve_shares_for_option (db : DB) (optId sid : Nat) (sharesNeeded : Int) :
    Except ReserveError Unit × DB :=
  let rows := reservableLots db sid
  if rows = [] then (Except.error ReserveError.noReservableShares, db)
  else
    let total := (rows.map (fun p => p.1.remaining_quantity - p.2)).sum
    if total < sharesNeeded then
      (Except.error (ReserveError.insufficientShares total sharesNeeded), db)
    else
      (Except.ok (),
       { db with reservations := db.reservations ++ reserveWalk optId sharesNeeded rows })

/-! Invariants of the data model. -/

/-- Primary-key uniqueness of `stock_lots.id`. -/
def lotIdsNodup (db : DB) : Prop := (db.lots.map Lot.id).Nodup

/-- Foreign-key integrity of `stock_lot_sales.lot_id`. -/
def salesFK (db : DB) : Prop := ∀ a ∈ db.lot_sales, a.lot_id ∈ db.lots.map Lot.id

/-- Foreign-key integrity of `option_reservations.lot_id`. -/
def resFK (db : DB) : Prop := ∀ r ∈ db.reservations, r.lot_id ∈ db.lots.map Lot.id

/-- Conservation: a lot's original quantity is its remaining quantity plus
everything sold off it. -/
def conserved (db : DB) : Prop :=
  ∀ l ∈ db.lots, l.quantity = l.remaining_quantity + allocSumFor db.lot_sales l.id

/-- Reservation exclusivity: no lot is reserved beyond its remaining
quantity. -/
def resInvariant (db : DB) : Prop :=
  ∀ l ∈ db.lots, reservedSum db.reservations l.id ≤ l.remaining_quantity

/-- Sellable quantity as the specification words it: the total remaining
quantity of the open lots minus the reservations on those lots (with no
per-lot clamping). -/
def specSellable (db : DB) (sid : Nat) : Int :=
  (((fifoOpenLots db sid).map (fun l => availableForSale db l))).sum

instance {ε α : Type} [DecidableEq ε] [DecidableEq α] : DecidableEq (Except ε α) := fun x y =>
  match x, y with
  | Except.ok a, Except.ok b =>
    if h : a = b then Decidable.isTrue (by rw [h])
    else Decidable.isFalse (by intro hc; cases hc; exact h rfl)
  | Except.error a, Except.error b =>
    if h : a = b then Decidable.isTrue (by rw [h])
    else Decidable.isFalse (by intro hc; cases hc; exact h rfl)
  | Except.ok _, Except.error _ => Decidable.isFalse (by intro hc; cases hc)
  | Except.error _, Except.ok _ => Decidable.isFalse (by intro hc; cases hc)

instance (db : DB) : Decidable (lotIdsNodup db) := by
  unfold lotIdsNodup; infer_instance

instance (db : DB) : Decidable (salesFK db) := by
  unfold salesFK; exact List.decidableBAll _ _

instance (db : DB) : Decidable (resFK db) := by
  unfold resFK; exact List.decidableBAll _ _

instance (db : DB) : Decidable (conserved db) := by
  unfold conserved; exact List.decidableBAll _ _

instance (db : DB) : Decidable (resInvariant db) := by
  unfold resInvariant; exact List.decidableBAll _ _

/-! The NBP exchange-rate provider (`src/services/nbp.py`). Calendar dates
are embedded as integer day indices counted from a Monday, so that the day
of week of `d` is `d % 7` with Monday `0` and Sunday `6`, exactly the value
of Python's `date.weekday()`; subtracting `timedelta(days=1)` is `d - 1`. -/

/-- One row of the `exchange_rates` cache table. -/
structure RateEntry where
  currency_pair : String
  rate : ℚ
  date : Int
deriving DecidableEq

/-- The `exchange_rates` table. -/
abbrev RateCache := List RateEntry

/-- What one HTTP request to the NBP API can come back as: a 200 response
with a mid rate, a 404 (no data for the date), a `requests.RequestException`,
or any other status code. The source is modelled as a function from the
requested date to its response. -/
inductive SrcResp where
  | ok (mid : ℚ)
  | notFound
  | connectionError
  | otherStatus
deriving DecidableEq

/-- The `currency_pair` key used by `NBPService` for a currency. -/
def pairOf (currency : String) : String := currency ++ "/PLN"

/-- `NBPService._get_cached_rate`: the exact `(currency_pair, date)` lookup. -/
def getCachedRate (cache : RateCache) (currency : String) (d : Int) : Option ℚ :=
  (cache.find? (fun e => e.currency_pair == pairOf currency && e.date == d)).map
    RateEntry.rate

/-- Python truthiness of an optional rate: `if cached_rate:` is false for
`None` and for a rate of exactly `0.0`. -/
def truthy : Option ℚ → Bool
  | none => false
  | some r => r != 0

/-- `NBPService._cache_rate`: `INSERT OR REPLACE` keyed on
`(currency_pair, date)`. -/
def cacheRate (cache : RateCache) (p : String) (r : ℚ) (d : Int) : RateCache :=
  ⟨p, r, d⟩ :: cache.filter (fun e => !(e.currency_pair == p && e.date == d))

/-- `NBPService._get_last_available_rate`: the rate of the row with the
greatest date at or before `d` for the pair (`ORDER BY date DESC LIMIT 1`). -/
def lastAvailableRate (cache : RateCache) (currency : String) (d : Int) : Option ℚ :=
  match cache.filter (fun e => e.currency_pair == pairOf currency && decide (e.date ≤ d)) with
  | [] => none
  | e :: es =>
    some (es.foldl (fun best e2 => if best.date < e2.date then e2 else best) e).rate

/-- `NBPService._get_previous_working_day_rate` (lines 167-203): up to
`max_days` times, step one calendar day back; skip Saturday and Sunday;
on a working day first consult the cache (Python truthiness), then the
source, caching and returning a 200 response under the date it was found
for; on anything else keep walking. -/
def prevWorkingDayWalk (src : Int → SrcResp) (currency : String) (cache : RateCache) :
    Nat → Int → Option ℚ × RateCache
  | 0, _ => (none, cache)
  | n + 1, d =>
    let d1 := d - 1
    if 5 ≤ d1 % 7 then prevWorkingDayWalk src currency cache n d1
    else
      let c := getCachedRate cache currency d1
      if truthy c then (c, cache)
      else
        match src d1 with
        | SrcResp.ok r => (some r, cacheRate cache (pairOf currency) r d1)
        | _ => prevWorkingDayWalk src currency cache n d1

/-- `NBPService.get_exchange_rate` (lines 18-63): cache first; then the
source for the exact date, caching a 200 under that date; on 404 the
previous-working-day walk with `max_days = 10`; on a connection error the
last cached rate at or before the date; on any other status, no rate. -/
def get_exchange_rate (src : Int → SrcResp) (cache : RateCache) (currency : String)
    (d : Int) : Option ℚ × RateCache :=
  let c := getCachedRate cache currency d
  if truthy c then (c, cache)
  else
    match src d with
    | SrcResp.ok r => (some r, cacheRate cache (pairOf currency) r d)
    | SrcResp.notFound => prevWorkingDayWalk src currency cache 10 d
    | SrcResp.connectionError => (lastAvailableRate cache currency d, cache)
    | SrcResp.otherStatus => (none, cache)

/-- Is an `Except` a success? -/
def exceptOk {ε α : Type} : Except ε α → Bool
  | Except.ok _ => true
  | Except.error _ => false

/-! Concrete scenario states, built through the embedded operations. -/

/-- The empty database. -/
def dbEmpty : DB := ⟨[], [], [], []⟩

/-- Scenario of the spec: buy 100 shares at $50.00, commission $1,
rate 4.00 PLN/USD on day 0. -/
def dbBuy100 : DB := (create_lot_from_purchase dbEmpty 1 1 100 50 1 0 4).2

/-- Scenario of the spec: two 10-share lots of the same security purchased
on the same date (sequence numbers 1 and 2). -/
def dbTwoLots : DB :=
  (create_lot_from_purchase (create_lot_from_purchase dbEmpty 1 1 10 50 1 0 4).2
    1 2 10 50 1 0 4).2

/-- Two 10-share lots bought on days 0 and 1. -/
def dbTwoDays : DB :=
  (create_lot_from_purchase (create_lot_from_purchase dbEmpty 1 1 10 50 1 0 4).2
    1 2 10 50 1 1 4).2

/-- `dbTwoDays` after reserving 10 shares for option 1: the whole
reservation lands on the older lot 1. -/
def dbReserved : DB := (reserve_shares_for_option dbTwoDays 1 1 10).2

/-- `dbReserved` after selling 5 shares through the transaction flow: FIFO
consumes the fully reserved lot 1 down to 5 remaining, leaving 10 shares
reserved on it. -/
def dbOverReserved : DB := (add_sell_transaction dbReserved 1 5 60 2 4).2

/-- A rate source with data only for day 2 (a Wednesday): day 3 is a
non-trading day answered with 404. -/
def srcDay2 : Int → SrcResp := fun e => if e = 2 then SrcResp.ok 4 else SrcResp.notFound

/-- A rate source whose every request raises a connection error. -/
def srcDown : Int → SrcResp := fun _ => SrcResp.connectionError

/-- A cache holding one USD/PLN rate, for day 1. -/
def cacheDay1 : RateCache := [⟨"USD/PLN", 4, 1⟩]

/-! Facts about the FIFO lot query. -/

theorem mem_openLotsOf {db : DB} {sid : Nat} {l : Lot} :
    l ∈ openLotsOf db sid ↔ l ∈ db.lots ∧ l.stock_id = sid ∧ 0 < l.remaining_quantity := by
  simp [openLotsOf, List.mem_filter, and_assoc]

theorem fifoOpenLots_perm (db : DB) (sid : Nat) :
    (fifoOpenLots db sid).Perm (openLotsOf db sid) :=
  List.perm_insertionSort lotLe (openLotsOf db sid)

theorem mem_fifoOpenLots {db : DB} {sid : Nat} {l : Lot} :
    l ∈ fifoOpenLots db sid ↔ l ∈ db.lots ∧ l.stock_id = sid ∧ 0 < l.remaining_quantity := by
  rw [(fifoOpenLots_perm db sid).mem_iff]
  exact mem_openLotsOf

theorem fifoOpenLots_sorted (db : DB) (sid : Nat) :
    List.Sorted lotLe (fifoOpenLots db sid) :=
  List.sorted_insertionSort lotLe (openLotsOf db sid)

theorem fifoOpenLots_nodup_ids {db : DB} (sid : Nat) (h : lotIdsNodup db) :
    ((fifoOpenLots db sid).map Lot.id).Nodup := by
  have h1 : ((openLotsOf db sid).map Lot.id).Sublist (db.lots.map Lot.id) :=
    (List.filter_sublist db.lots).map Lot.id
  have h2 : ((openLotsOf db sid).map Lot.id).Nodup := h1.nodup h
  exact (((fifoOpenLots_perm db sid).map Lot.id).nodup_iff).mpr h2

theorem fifoOpenLots_pos {db : DB} {sid : Nat} :
    ∀ l ∈ fifoOpenLots db sid, 0 < l.remaining_quantity :=
  fun _ hl => (mem_fifoOpenLots.mp hl).2.2

/-! Facts about the FIFO consumption loop. -/

theorem saleWalk_fst_length_le (tx : Nat) (dt : Int) (p r : ℚ) (ls : List Lot) :
    ∀ t : Int, (saleWalk tx dt p r t ls).1.length ≤ ls.length := by
  induction ls with
  | nil => intro t; simp [saleWalk]
  | cons l rest ih =>
    intro t
    by_cases h : t ≤ 0
    · simp [saleWalk, h]
    · simpa [saleWalk, h] using ih _

theorem saleWalk_snd_length (tx : Nat) (dt : Int) (p r : ℚ) (ls : List Lot) :
    ∀ t : Int, (saleWalk tx dt p r t ls).2.length = (saleWalk tx dt p r t ls).1.length := by
  induction ls with
  | nil => intro t; rfl
  | cons l rest ih =>
    intro t
    by_cases h : t ≤ 0
    · simp [saleWalk, h]
    · simpa [saleWalk, h] using ih _

theorem saleWalk_fst_mem (tx : Nat) (dt : Int) (p r : ℚ) (ls : List Lot) :
    ∀ (t : Int), ∀ a ∈ (saleWalk tx dt p r t ls).1, ∃ l ∈ ls, ∃ q, a = mkAlloc tx dt p r l q := by
  induction ls with
  | nil => intro t a ha; simp [saleWalk] at ha
  | cons l rest ih =>
    intro t a ha
    by_cases h : t ≤ 0
    · simp [saleWalk, h] at ha
    · simp only [saleWalk, if_neg h, List.mem_cons] at ha
      rcases ha with ha | ha
      · exact ⟨l, List.mem_cons_self l rest, _, ha⟩
      · obtain ⟨l2, hl2, q, hq⟩ := ih _ a ha
        exact ⟨l2, List.mem_cons_of_mem l hl2, q, hq⟩

theorem saleWalk_snd_mem (tx : Nat) (dt : Int) (p r : ℚ) (ls : List Lot) :
    ∀ (t : Int), ∀ u ∈ (saleWalk tx dt p r t ls).2, ∃ l ∈ ls, u.lot_id = l.id := by
  induction ls with
  | nil => intro t u hu; simp [saleWalk] at hu
  | cons l rest ih =>
    intro t u hu
    by_cases h : t ≤ 0
    · simp [saleWalk, h] at hu
    · simp only [saleWalk, if_neg h, List.mem_cons] at hu
      rcases hu with hu | hu
      · exact ⟨l, List.mem_cons_self l rest, by rw [hu]⟩
      · obtain ⟨l2, hl2, hq⟩ := ih _ u hu
        exact ⟨l2, List.mem_cons_of_mem l hl2, hq⟩

theorem mkAlloc_lot_id (tx : Nat) (dt : Int) (p r : ℚ) (l : Lot) (q : Int) :
    (mkAlloc tx dt p r l q).lot_id = l.id := rfl

theorem mkAlloc_quantity_sold (tx : Nat) (dt : Int) (p r : ℚ) (l : Lot) (q : Int) :
    (mkAlloc tx dt p r l q).quantity_sold = q := rfl

theorem saleWalk_allocSumFor_not_mem (tx : Nat) (dt : Int) (p r : ℚ) (ls : List Lot)
    (t : Int) (i : Nat) (hi : i ∉ ls.map Lot.id) :
    allocSumFor (saleWalk tx dt p r t ls).1 i = 0 := by
  unfold allocSumFor
  have h : (saleWalk tx dt p r t ls).1.filter (fun a => a.lot_id == i) = [] := by
    rw [List.filter_eq_nil_iff]
    intro a ha
    obtain ⟨l, hl, q, hq⟩ := saleWalk_fst_mem tx dt p r ls t a ha
    simp only [hq, mkAlloc_lot_id, beq_iff_eq]
    intro hli
    exact hi (hli ▸ List.mem_map_of_mem Lot.id hl)
  simp [h]

/-! Facts about applying lot updates. -/

theorem applyUpdateTo_id (u : LotUpdate) (l : Lot) : (applyUpdateTo u l).id = l.id := by
  unfold applyUpdateTo; split <;> rfl

theorem applyUpdateTo_quantity (u : LotUpdate) (l : Lot) :
    (applyUpdateTo u l).quantity = l.quantity := by
  unfold applyUpdateTo; split <;> rfl

theorem applyUpdateTo_skip (u : LotUpdate) (l : Lot) (h : u.lot_id ≠ l.id) :
    applyUpdateTo u l = l := by
  unfold applyUpdateTo
  rw [if_neg (fun hl => h hl.symm)]

theorem applyLot_nil (l : Lot) : applyLot [] l = l := rfl

theorem applyLot_cons (u : LotUpdate) (us : List LotUpdate) (l : Lot) :
    applyLot (u :: us) l = applyLot us (applyUpdateTo u l) := rfl

theorem applyLot_id (us : List LotUpdate) : ∀ l : Lot, (applyLot us l).id = l.id := by
  induction us with
  | nil => intro l; rfl
  | cons u us ih =>
    intro l
    rw [applyLot_cons, ih, applyUpdateTo_id]

theorem applyLot_quantity (us : List LotUpdate) :
    ∀ l : Lot, (applyLot us l).quantity = l.quantity := by
  induction us with
  | nil => intro l; rfl
  | cons u us ih =>
    intro l
    rw [applyLot_cons, ih, applyUpdateTo_quantity]

theorem applyLot_skip (us : List LotUpdate) :
    ∀ l : Lot, (∀ u ∈ us, u.lot_id ≠ l.id) → applyLot us l = l := by
  induction us with
  | nil => intro l _; rfl
  | cons u us ih =>
    intro l h
    rw [applyLot_cons, applyUpdateTo_skip u l (h u (List.mem_cons_self u us))]
    exact ih l (fun u2 hu2 => h u2 (List.mem_cons_of_mem u hu2))

theorem applyUpdates_eq_map (us : List LotUpdate) :
    ∀ lots : List Lot, applyUpdates lots us = lots.map (applyLot us) := by
  induction us with
  | nil =>
    intro lots
    have h : applyLot ([] : List LotUpdate) = id := rfl
    simp [applyUpdates, h]
  | cons u us ih =>
    intro lots
    have h1 : applyUpdates lots (u :: us) = applyUpdates (lots.map (applyUpdateTo u)) us := rfl
    rw [h1, ih, List.map_map]
    rfl

theorem allocSumFor_cons (a : SaleAlloc) (as : List SaleAlloc) (i : Nat) :
    allocSumFor (a :: as) i =
      (if a.lot_id = i then a.quantity_sold else 0) + allocSumFor as i := by
  unfold allocSumFor
  by_cases h : a.lot_id = i <;> simp [List.filter_cons, h]

theorem allocSumFor_append (xs ys : List SaleAlloc) (i : Nat) :
    allocSumFor (xs ++ ys) i = allocSumFor xs i + allocSumFor ys i := by
  unfold allocSumFor
  rw [List.filter_append, List.map_append, List.sum_append]

theorem allocSumFor_nil (i : Nat) : allocSumFor [] i = 0 := rfl

/-- Per-lot effect of one `process_sale_fifo` loop: a lot of the walked
list ends with its remaining quantity decremented by exactly the total
quantity the loop allocated against it, and, when anything was allocated,
with the recomputed status. -/
theorem saleWalk_applyLot_spec (tx : Nat) (dt : Int) (p r : ℚ) (ls : List Lot) :
    ∀ t : Int, (ls.map Lot.id).Nodup →
      ∀ l ∈ ls,
        (applyLot (saleWalk tx dt p r t ls).2 l).remaining_quantity =
          l.remaining_quantity - allocSumFor (saleWalk tx dt p r t ls).1 l.id ∧
        (allocSumFor (saleWalk tx dt p r t ls).1 l.id ≠ 0 →
          (applyLot (saleWalk tx dt p r t ls).2 l).status =
            (if l.remaining_quantity - allocSumFor (saleWalk tx dt p r t ls).1 l.id = 0
             then LotStatus.CLOSED else LotStatus.PARTIAL)) := by
  induction ls with
  | nil => intro t _ l hl; cases hl
  | cons l0 rest ih =>
    intro t hnd l hl
    rw [List.map_cons, List.nodup_cons] at hnd
    obtain ⟨hid0, hndr⟩ := hnd
    by_cases h : t ≤ 0
    · simp [saleWalk, h, allocSumFor_nil, applyLot_nil]
    · have hwalk : saleWalk tx dt p r t (l0 :: rest) =
          (mkAlloc tx dt p r l0 (min t l0.remaining_quantity) ::
            (saleWalk tx dt p r (t - min t l0.remaining_quantity) rest).1,
           (⟨l0.id, l0.remaining_quantity - min t l0.remaining_quantity,
             if l0.remaining_quantity - min t l0.remaining_quantity = 0 then LotStatus.CLOSED
             else LotStatus.PARTIAL⟩ : LotUpdate) ::
            (saleWalk tx dt p r (t - min t l0.remaining_quantity) rest).2) := by
        simp [saleWalk, h]
      rw [hwalk]
      rcases List.mem_cons.mp hl with hl0 | hlr
      · subst hl0
        have hsum0 : allocSumFor (saleWalk tx dt p r (t - min t l.remaining_quantity) rest).1 l.id = 0 :=
          saleWalk_allocSumFor_not_mem tx dt p r rest _ l.id hid0
        have hsum : allocSumFor
            (mkAlloc tx dt p r l (min t l.remaining_quantity) ::
              (saleWalk tx dt p r (t - min t l.remaining_quantity) rest).1) l.id =
            min t l.remaining_quantity := by
          rw [allocSumFor_cons, hsum0, mkAlloc_lot_id, mkAlloc_quantity_sold, if_pos rfl,
            add_zero]
        rw [hsum]
        set u0 : LotUpdate :=
          ⟨l.id, l.remaining_quantity - min t l.remaining_quantity,
            if l.remaining_quantity - min t l.remaining_quantity = 0 then LotStatus.CLOSED
            else LotStatus.PARTIAL⟩ with hu0
        have happ : applyUpdateTo u0 l =
            { l with remaining_quantity := l.remaining_quantity - min t l.remaining_quantity,
                     status := if l.remaining_quantity - min t l.remaining_quantity = 0
                       then LotStatus.CLOSED else LotStatus.PARTIAL } := by
          unfold applyUpdateTo
          rw [if_pos rfl]
        have hskip : applyLot (saleWalk tx dt p r (t - min t l.remaining_quantity) rest).2
            (applyUpdateTo u0 l) = applyUpdateTo u0 l := by
          apply applyLot_skip
          intro u hu
          obtain ⟨l2, hl2, hq⟩ := saleWalk_snd_mem tx dt p r rest _ u hu
          rw [hq, happ]
          simp only []
          intro heq
          exact hid0 (heq ▸ List.mem_map_of_mem Lot.id hl2)
        rw [applyLot_cons, hskip, happ]
        exact ⟨rfl, fun _ => rfl⟩
      · have hne : l.id ≠ l0.id := by
          intro heq
          exact hid0 (heq ▸ List.mem_map_of_mem Lot.id hlr)
        have hsum : allocSumFor
            (mkAlloc tx dt p r l0 (min t l0.remaining_quantity) ::
              (saleWalk tx dt p r (t - min t l0.remaining_quantity) rest).1) l.id =
            allocSumFor (saleWalk tx dt p r (t - min t l0.remaining_quantity) rest).1 l.id := by
          rw [allocSumFor_cons, mkAlloc_lot_id, if_neg (fun hx => hne hx.symm), zero_add]
        have hskip : applyUpdateTo
            (⟨l0.id, l0.remaining_quantity - min t l0.remaining_quantity,
              if l0.remaining_quantity - min t l0.remaining_quantity = 0 then LotStatus.CLOSED
              else LotStatus.PARTIAL⟩ : LotUpdate) l = l :=
          applyUpdateTo_skip _ l (fun hx => hne hx.symm)
        rw [hsum, applyLot_cons, hskip]
        exact ih _ hndr l hlr

/-- Lots whose id the walk never touched are unchanged by its updates. -/
theorem saleWalk_applyLot_not_mem (tx : Nat) (dt : Int) (p r : ℚ) (ls : List Lot)
    (t : Int) (l : Lot) (h : l.id ∉ ls.map Lot.id) :
    applyLot (saleWalk tx dt p r t ls).2 l = l := by
  apply applyLot_skip
  intro u hu
  obtain ⟨l2, hl2, hq⟩ := saleWalk_snd_mem tx dt p r ls t u hu
  rw [hq]
  intro heq
  exact h (heq ▸ List.mem_map_of_mem Lot.id hl2)

theorem allocQtySum_nil : allocQtySum [] = 0 := rfl

theorem allocQtySum_cons (a : SaleAlloc) (as : List SaleAlloc) :
    allocQtySum (a :: as) = a.quantity_sold + allocQtySum as := by
  unfold allocQtySum
  rw [List.map_cons, List.sum_cons]

/-- Indexed characterization of the FIFO loop: the m-th allocation is taken
from the m-th lot of the FIFO list, its quantity is
`min(remaining_to_sell, lot.remaining_quantity)` where `remaining_to_sell`
is the requested quantity less everything allocated before, and that
`remaining_to_sell` is still positive. -/
theorem saleWalk_get_spec (tx : Nat) (dt : Int) (p r : ℚ) (ls : List Lot) :
    ∀ (t : Int) (m : Nat) (hm1 : m < (saleWalk tx dt p r t ls).1.length),
      ∃ hml : m < ls.length,
        0 < t - allocQtySum ((saleWalk tx dt p r t ls).1.take m) ∧
        (saleWalk tx dt p r t ls).1.get ⟨m, hm1⟩ =
          mkAlloc tx dt p r (ls.get ⟨m, hml⟩)
            (min (t - allocQtySum ((saleWalk tx dt p r t ls).1.take m))
              (ls.get ⟨m, hml⟩).remaining_quantity) := by
  induction ls with
  | nil => intro t m hm1; simp [saleWalk] at hm1
  | cons l0 rest ih =>
    intro t m hm1
    by_cases h : t ≤ 0
    · rw [show (saleWalk tx dt p r t (l0 :: rest)) = ([], []) by simp [saleWalk, h]] at hm1
      simp at hm1
    · have hwalk : (saleWalk tx dt p r t (l0 :: rest)).1 =
          mkAlloc tx dt p r l0 (min t l0.remaining_quantity) ::
            (saleWalk tx dt p r (t - min t l0.remaining_quantity) rest).1 := by
        simp [saleWalk, h]
      match m with
      | 0 =>
        refine ⟨Nat.succ_pos _, ?_, ?_⟩
        · simpa [hwalk, allocQtySum_nil] using lt_of_not_ge h
        · simp [hwalk, allocQtySum_nil]
      | Nat.succ m =>
        have hm1c : m + 1 < (mkAlloc tx dt p r l0 (min t l0.remaining_quantity) ::
            (saleWalk tx dt p r (t - min t l0.remaining_quantity) rest).1).length := by
          rw [← hwalk]; exact hm1
        have hm1r : m < (saleWalk tx dt p r (t - min t l0.remaining_quantity) rest).1.length :=
          Nat.lt_of_succ_lt_succ (by simpa using hm1c)
        obtain ⟨hml, hpos, heq⟩ := ih (t - min t l0.remaining_quantity) m hm1r
        have htake : allocQtySum ((saleWalk tx dt p r t (l0 :: rest)).1.take (m + 1)) =
            min t l0.remaining_quantity +
              allocQtySum
                ((saleWalk tx dt p r (t - min t l0.remaining_quantity) rest).1.take m) := by
          rw [hwalk, List.take_succ_cons, allocQtySum_cons, mkAlloc_quantity_sold]
        have hsub : t - allocQtySum ((saleWalk tx dt p r t (l0 :: rest)).1.take (m + 1)) =
            t - min t l0.remaining_quantity -
              allocQtySum
                ((saleWalk tx dt p r (t - min t l0.remaining_quantity) rest).1.take m) := by
          rw [htake]; omega
        refine ⟨Nat.succ_lt_succ hml, ?_, ?_⟩
        · rw [hsub]; exact hpos
        · have hget : (saleWalk tx dt p r t (l0 :: rest)).1.get ⟨m + 1, hm1⟩ =
              (saleWalk tx dt p r (t - min t l0.remaining_quantity) rest).1.get ⟨m, hm1r⟩ := by
            simp [hwalk]
          rw [hget, hsub, heq]
          rfl

/-- Every allocation but the last of a `process_sale_fifo` loop consumes
its lot completely. -/
theorem saleWalk_full_before_last (tx : Nat) (dt : Int) (p r : ℚ) (ls : List Lot)
    (t : Int) (m : Nat) (hm : m + 1 < (saleWalk tx dt p r t ls).1.length) :
    ∃ hm0 : m < (saleWalk tx dt p r t ls).1.length, ∃ hml : m < ls.length,
      ((saleWalk tx dt p r t ls).1.get ⟨m, hm0⟩).quantity_sold =
        (ls.get ⟨m, hml⟩).remaining_quantity := by
  have hm0 : m < (saleWalk tx dt p r t ls).1.length := Nat.lt_of_succ_lt hm
  obtain ⟨hml, hpos, heq⟩ := saleWalk_get_spec tx dt p r ls t m hm0
  obtain ⟨hml2, hpos2, heq2⟩ := saleWalk_get_spec tx dt p r ls t (m + 1) hm
  refine ⟨hm0, hml, ?_⟩
  rw [heq, mkAlloc_quantity_sold]
  -- the walk continued past position m, so min did not exhaust the request
  have htake : (saleWalk tx dt p r t ls).1.take (m + 1) =
      (saleWalk tx dt p r t ls).1.take m ++ [(saleWalk tx dt p r t ls).1.get ⟨m, hm0⟩] := by
    have h1 := List.take_concat_get (saleWalk tx dt p r t ls).1 m hm0
    rw [List.concat_eq_append] at h1
    exact h1.symm
  rw [htake] at hpos2
  have hsum : allocQtySum ((saleWalk tx dt p r t ls).1.take m ++
      [(saleWalk tx dt p r t ls).1.get ⟨m, hm0⟩]) =
      allocQtySum ((saleWalk tx dt p r t ls).1.take m) +
        ((saleWalk tx dt p r t ls).1.get ⟨m, hm0⟩).quantity_sold := by
    unfold allocQtySum
    rw [List.map_append, List.sum_append]
    simp
  rw [hsum, heq, mkAlloc_quantity_sold] at hpos2
  omega

/-- With distinct lot ids, everything the loop allocated against the m-th
lot is the m-th allocation's quantity. -/
theorem saleWalk_allocSumFor_get (tx : Nat) (dt : Int) (p r : ℚ) (ls : List Lot) :
    ∀ (t : Int) (m : Nat) (hm : m < (saleWalk tx dt p r t ls).1.length)
      (hml : m < ls.length), (ls.map Lot.id).Nodup →
      allocSumFor (saleWalk tx dt p r t ls).1 ((ls.get ⟨m, hml⟩).id) =
        ((saleWalk tx dt p r t ls).1.get ⟨m, hm⟩).quantity_sold := by
  induction ls with
  | nil => intro t m hm hml; simp [saleWalk] at hm
  | cons l0 rest ih =>
    intro t m hm hml hnd
    rw [List.map_cons, List.nodup_cons] at hnd
    obtain ⟨hid0, hndr⟩ := hnd
    by_cases h : t ≤ 0
    · rw [show (saleWalk tx dt p r t (l0 :: rest)) = ([], []) by simp [saleWalk, h]] at hm
      simp at hm
    · have hwalk : (saleWalk tx dt p r t (l0 :: rest)).1 =
          mkAlloc tx dt p r l0 (min t l0.remaining_quantity) ::
            (saleWalk tx dt p r (t - min t l0.remaining_quantity) rest).1 := by
        simp [saleWalk, h]
      match m with
      | 0 =>
        have hsum0 :
            allocSumFor (saleWalk tx dt p r (t - min t l0.remaining_quantity) rest).1 l0.id = 0 :=
          saleWalk_allocSumFor_not_mem tx dt p r rest _ l0.id hid0
        have hget : (saleWalk tx dt p r t (l0 :: rest)).1.get ⟨0, hm⟩ =
            mkAlloc tx dt p r l0 (min t l0.remaining_quantity) := by
          simp [hwalk]
        rw [hget]
        show allocSumFor (saleWalk tx dt p r t (l0 :: rest)).1 l0.id = _
        rw [hwalk, allocSumFor_cons, mkAlloc_lot_id, if_pos rfl, hsum0, add_zero,
          mkAlloc_quantity_sold]
      | Nat.succ m =>
        have hmlr : m < rest.length := Nat.lt_of_succ_lt_succ hml
        have hmc : m + 1 < (mkAlloc tx dt p r l0 (min t l0.remaining_quantity) ::
            (saleWalk tx dt p r (t - min t l0.remaining_quantity) rest).1).length := by
          rw [← hwalk]; exact hm
        have hmr : m < (saleWalk tx dt p r (t - min t l0.remaining_quantity) rest).1.length :=
          Nat.lt_of_succ_lt_succ (by simpa using hmc)
        have hgetl : (l0 :: rest).get ⟨m + 1, hml⟩ = rest.get ⟨m, hmlr⟩ := rfl
        have hget : (saleWalk tx dt p r t (l0 :: rest)).1.get ⟨m + 1, hm⟩ =
            (saleWalk tx dt p r (t - min t l0.remaining_quantity) rest).1.get ⟨m, hmr⟩ := by
          simp [hwalk]
        have hne : (rest.get ⟨m, hmlr⟩).id ≠ l0.id := by
          intro heq
          exact hid0 (heq ▸ List.mem_map_of_mem Lot.id (List.get_mem rest _ _))
        rw [hgetl, hget, hwalk, allocSumFor_cons, mkAlloc_lot_id,
          if_neg (fun hx => hne hx.symm), zero_add]
        exact ih _ m hmr hmlr hndr

theorem le_foldr_max (ids : List Nat) : ∀ i ∈ ids, i ≤ ids.foldr max 0 := by
  induction ids with
  | nil => intro i hi; cases hi
  | cons a as ih =>
    intro i hi
    rcases List.mem_cons.mp hi with h | h
    · rw [h, List.foldr_cons]; exact le_max_left _ _
    · exact le_trans (ih i h) (by rw [List.foldr_cons]; exact le_max_right _ _)

theorem nextId_not_mem (ids : List Nat) : nextId ids ∉ ids := by
  intro h
  have h2 := le_foldr_max ids _ h
  unfold nextId at h2
  omega

/-- A lot of the table either appears among the FIFO-ordered open lots of a
security or its id is absent from that query's result. -/
theorem lot_open_or_untouched {db : DB} (sid : Nat) (hnd : lotIdsNodup db) {l : Lot}
    (hl : l ∈ db.lots) :
    l ∈ fifoOpenLots db sid ∨ l.id ∉ (fifoOpenLots db sid).map Lot.id := by
  by_cases hmem : l.id ∈ (fifoOpenLots db sid).map Lot.id
  · left
    obtain ⟨l2, hl2, hid⟩ := List.mem_map.mp hmem
    have hl2db : l2 ∈ db.lots := (mem_fifoOpenLots.mp hl2).1
    have heq : l2 = l := List.inj_on_of_nodup_map hnd hl2db hl hid
    exact heq ▸ hl2
  · right; exact hmem

/-- Success inversion for `process_sale_fifo`. -/
theorem process_sale_fifo_ok {db : DB} {sid saleTx : Nat} {qty : Int} {salePriceUsd : ℚ}
    {saleDate : Int} {rate : ℚ} {allocs : List SaleAlloc} {db2 : DB}
    (hok : process_sale_fifo db sid saleTx qty salePriceUsd saleDate rate =
      (Except.ok allocs, db2)) :
    fifoOpenLots db sid ≠ [] ∧
    ¬ totalRemaining (fifoOpenLots db sid) < qty ∧
    allocs = (saleWalk saleTx saleDate salePriceUsd rate qty (fifoOpenLots db sid)).1 ∧
    db2 = { db with
      lots := applyUpdates db.lots
        (saleWalk saleTx saleDate salePriceUsd rate qty (fifoOpenLots db sid)).2,
      lot_sales := db.lot_sales ++
        (saleWalk saleTx saleDate salePriceUsd rate qty (fifoOpenLots db sid)).1 } := by
  by_cases h1 : fifoOpenLots db sid = []
  · simp [process_sale_fifo, h1] at hok
  · by_cases h2 : totalRemaining (fifoOpenLots db sid) < qty
    · simp [process_sale_fifo, h1, h2] at hok
    · simp only [process_sale_fifo, if_neg h1, if_neg h2, Prod.mk.injEq,
        Except.ok.injEq] at hok
      exact ⟨h1, h2, hok.1.symm, hok.2.symm⟩

/-- C1: FIFO ordering. In a successful `process_sale_fifo`, an allocation is
recorded against a lot only after every open lot of the security with an
earlier purchase date — or the same date and a lower lot number — has been
consumed completely by the same sale. -/
theorem fifo_ordering (db : DB) (sid saleTx : Nat) (qty : Int) (salePriceUsd : ℚ)
    (saleDate : Int) (rate : ℚ) (hnd : lotIdsNodup db)
    (allocs : List SaleAlloc) (db2 : DB)
    (hok : process_sale_fifo db sid saleTx qty salePriceUsd saleDate rate =
      (Except.ok allocs, db2))
    (A B : Lot) (hA : A ∈ db.lots) (hAs : A.stock_id = sid) (hAr : 0 < A.remaining_quantity)
    (hB : B ∈ db.lots) (hBs : B.stock_id = sid) (hBr : 0 < B.remaining_quantity)
    (hlt : A.purchase_date < B.purchase_date ∨
      (A.purchase_date = B.purchase_date ∧ A.lot_number < B.lot_number))
    (hBalloc : ∃ b ∈ allocs, b.lot_id = B.id) :
    ∃ a ∈ allocs, a.lot_id = A.id ∧ a.quantity_sold = A.remaining_quantity := by
  obtain ⟨hne, htot, hallocs, hdb2⟩ := process_sale_fifo_ok hok
  subst hallocs
  set ls := fifoOpenLots db sid with hls
  set w1 := (saleWalk saleTx saleDate salePriceUsd rate qty ls).1 with hw1
  have hndls : (ls.map Lot.id).Nodup := fifoOpenLots_nodup_ids sid hnd
  have hAin : A ∈ ls := mem_fifoOpenLots.mpr ⟨hA, hAs, hAr⟩
  have hBin : B ∈ ls := mem_fifoOpenLots.mpr ⟨hB, hBs, hBr⟩
  obtain ⟨b, hbmem, hbid⟩ := hBalloc
  obtain ⟨⟨j, hj⟩, hbj⟩ := List.mem_iff_get.mp hbmem
  obtain ⟨iA, hiA⟩ := List.mem_iff_get.mp hAin
  obtain ⟨hjl, _, hjeq⟩ := saleWalk_get_spec saleTx saleDate salePriceUsd rate ls qty j hj
  have hjB : ls.get ⟨j, hjl⟩ = B := by
    apply List.inj_on_of_nodup_map hndls (List.get_mem ls _ _) hBin
    rw [← hbid, ← hbj, hjeq, mkAlloc_lot_id]
  have hiAj : iA.1 < j := by
    rcases Nat.lt_trichotomy iA.1 j with h | h | h
    · exact h
    · exfalso
      have hAB : A = B := by rw [← hiA, ← hjB]; congr 1; exact Fin.ext h
      rcases hlt with h | ⟨_, h⟩ <;> rw [hAB] at h <;> omega
    · exfalso
      have hsorted := fifoOpenLots_sorted db sid
      rw [← hls] at hsorted
      have hle := List.pairwise_iff_get.mp hsorted ⟨j, hjl⟩ ⟨iA.1, iA.2⟩ h
      rw [hjB] at hle
      have hA2 : ls.get ⟨iA.1, iA.2⟩ = A := by rw [← hiA]
      rw [hA2] at hle
      rcases hle with h2 | ⟨h2, h2n⟩ <;> rcases hlt with h3 | ⟨h3, h3n⟩ <;> omega
  have hiAw : iA.1 + 1 < w1.length := lt_of_le_of_lt hiAj hj
  obtain ⟨hm0, hml, hfull⟩ :=
    saleWalk_full_before_last saleTx saleDate salePriceUsd rate ls qty iA.1 hiAw
  obtain ⟨hml2, _, heqA⟩ := saleWalk_get_spec saleTx saleDate salePriceUsd rate ls qty iA.1 hm0
  have hgetA : ls.get ⟨iA.1, hml⟩ = A := by
    have : (⟨iA.1, hml⟩ : Fin ls.length) = ⟨iA.1, iA.2⟩ := rfl
    rw [this, ← hiA]
  refine ⟨w1.get ⟨iA.1, hm0⟩, List.get_mem w1 _ _, ?_, ?_⟩
  · rw [heqA, mkAlloc_lot_id]
    have : ls.get ⟨iA.1, hml2⟩ = A := by
      have h2 : (⟨iA.1, hml2⟩ : Fin ls.length) = ⟨iA.1, iA.2⟩ := rfl
      rw [h2, ← hiA]
    rw [this]
  · rw [hfull, hgetA]

/-- Witness for C1: the spec's tie-break scenario. Two 10-share lots with
the same purchase date; selling 15 shares records an allocation against
lot 2, and lot 1 (lower sequence number) is consumed completely. -/
theorem fifo_ordering_witness :
    lotIdsNodup dbTwoLots ∧
    (∃ allocs db2,
      process_sale_fifo dbTwoLots 1 3 15 60 10 4 = (Except.ok allocs, db2) ∧
      allocs.map (fun a => (a.lot_id, a.quantity_sold)) = [(1, 10), (2, 5)] ∧
      (∃ b ∈ allocs, b.lot_id = 2) ∧
      (∃ a ∈ allocs, a.lot_id = 1 ∧ a.quantity_sold = 10)) := by
  have h1 : ¬ fifoOpenLots dbTwoLots 1 = [] := by decide
  have h2 : ¬ totalRemaining (fifoOpenLots dbTwoLots 1) < 15 := by decide
  have hok : process_sale_fifo dbTwoLots 1 3 15 60 10 4 =
      (Except.ok (saleWalk 3 10 60 4 15 (fifoOpenLots dbTwoLots 1)).1,
       { dbTwoLots with
          lots := applyUpdates dbTwoLots.lots
            (saleWalk 3 10 60 4 15 (fifoOpenLots dbTwoLots 1)).2,
          lot_sales := dbTwoLots.lot_sales ++
            (saleWalk 3 10 60 4 15 (fifoOpenLots dbTwoLots 1)).1 }) := by
    simp only [process_sale_fifo, if_neg h1, if_neg h2]
  refine ⟨by decide, _, _, hok, by decide, by decide, ?_⟩
  have hmain := fifo_ordering dbTwoLots 1 3 15 60 10 4 (by decide) _ _ hok
    (dbTwoLots.lots.get ⟨0, by decide⟩) (dbTwoLots.lots.get ⟨1, by decide⟩)
    (List.get_mem _ _ _) (by decide) (by decide)
    (List.get_mem _ _ _) (by decide) (by decide)
    (Or.inr ⟨by decide, by decide⟩) (by decide)
  obtain ⟨a, ha, haid, haq⟩ := hmain
  refine ⟨a, ha, ?_, ?_⟩
  · rw [haid]; decide
  · rw [haq]; decide


/-- C2: conservation. `create_lot_from_purchase` creates a lot with
`remaining_quantity = quantity` and no allocations against it, so every lot
still satisfies `quantity = remaining_quantity + sum of quantity_sold over
its allocations`; and every call of `process_sale_fifo` (successful or not)
preserves that equation for every lot. -/
theorem conservation_invariant (db : DB) (hnd : lotIdsNodup db) (hfk : salesFK db)
    (hc : conserved db) :
    (∀ (sid txId : Nat) (qty : Int) (priceUsd commissionUsd : ℚ) (purchaseDate : Int)
      (rate : ℚ),
      conserved (create_lot_from_purchase db sid txId qty priceUsd commissionUsd
        purchaseDate rate).2) ∧
    (∀ (sid saleTx : Nat) (qty : Int) (salePriceUsd : ℚ) (saleDate : Int) (rate : ℚ),
      conserved (process_sale_fifo db sid saleTx qty salePriceUsd saleDate rate).2) := by
  constructor
  · intro sid txId qty priceUsd commissionUsd purchaseDate rate
    intro l hl
    simp only [create_lot_from_purchase, List.mem_append, List.mem_singleton] at hl
    rcases hl with hl | hl
    · exact hc l hl
    · subst hl
      show qty = qty + allocSumFor db.lot_sales (nextId (db.lots.map Lot.id))
      have hzero : allocSumFor db.lot_sales (nextId (db.lots.map Lot.id)) = 0 := by
        unfold allocSumFor
        have hnil : db.lot_sales.filter
            (fun a => a.lot_id == nextId (db.lots.map Lot.id)) = [] := by
          rw [List.filter_eq_nil_iff]
          intro a ha
          simp only [beq_iff_eq]
          intro heq
          exact nextId_not_mem (db.lots.map Lot.id) (heq ▸ hfk a ha)
        rw [hnil]
        rfl
      rw [hzero]
      omega
  · intro sid saleTx qty salePriceUsd saleDate rate
    by_cases h1 : fifoOpenLots db sid = []
    · simp only [process_sale_fifo, h1, if_pos rfl]
      exact hc
    · by_cases h2 : totalRemaining (fifoOpenLots db sid) < qty
      · simp only [process_sale_fifo, if_neg h1, if_pos h2]
        exact hc
      · simp only [process_sale_fifo, if_neg h1, if_neg h2]
        intro l2 hl2
        simp only [applyUpdates_eq_map, List.mem_map] at hl2
        obtain ⟨l, hl, hl2eq⟩ := hl2
        subst hl2eq
        set w := saleWalk saleTx saleDate salePriceUsd rate qty (fifoOpenLots db sid) with hw
        rw [applyLot_quantity, applyLot_id, allocSumFor_append]
        rcases lot_open_or_untouched sid hnd hl with hopen | hout
        · have hspec := (saleWalk_applyLot_spec saleTx saleDate salePriceUsd rate
            (fifoOpenLots db sid) qty (fifoOpenLots_nodup_ids sid hnd) l hopen).1
          rw [← hw] at hspec
          rw [hspec, hc l hl]
          omega
        · rw [saleWalk_applyLot_not_mem saleTx saleDate salePriceUsd rate _ qty l hout,
            saleWalk_allocSumFor_not_mem saleTx saleDate salePriceUsd rate _ qty l.id hout,
            hc l hl]
          omega

/-- Witness for C2 at a concrete state: the scenario database with one
100-share lot satisfies the hypotheses and hence the conclusion. -/
theorem conservation_invariant_witness :
    lotIdsNodup dbBuy100 ∧ salesFK dbBuy100 ∧ conserved dbBuy100 ∧
    ((∀ (sid txId : Nat) (qty : Int) (priceUsd commissionUsd : ℚ) (purchaseDate : Int)
      (rate : ℚ),
      conserved (create_lot_from_purchase dbBuy100 sid txId qty priceUsd commissionUsd
        purchaseDate rate).2) ∧
    (∀ (sid saleTx : Nat) (qty : Int) (salePriceUsd : ℚ) (saleDate : Int) (rate : ℚ),
      conserved (process_sale_fifo dbBuy100 sid saleTx qty salePriceUsd saleDate rate).2)) :=
  ⟨by decide, by decide, by decide,
    conservation_invariant dbBuy100 (by decide) (by decide) (by decide)⟩

/-- C4: the fields of every allocation of a successful `process_sale_fifo`.
The m-th allocation is against the m-th FIFO lot; its quantity is
`min(quantity still to sell, lot.remaining_quantity)`;
`gain_loss_usd = (sale_price_usd - purchase_price_usd) * quantity_sold`;
`gain_loss_pln = (sale_price_usd * rate - purchase_price_pln) * quantity_sold`;
`tax_due_pln = max(0, gain_loss_pln * 0.19)`, never negative and zero on a
loss; and the touched lot ends with its remaining quantity decremented by
`quantity_sold` and status `CLOSED` when that hits zero, else `PARTIAL`. -/
theorem allocation_fields (db : DB) (sid saleTx : Nat) (qty : Int) (p : ℚ)
    (dt : Int) (r : ℚ) (hnd : lotIdsNodup db) (allocs : List SaleAlloc) (db2 : DB)
    (hok : process_sale_fifo db sid saleTx qty p dt r = (Except.ok allocs, db2))
    (m : Nat) (hm : m < allocs.length) :
    ∃ hml : m < (fifoOpenLots db sid).length,
      (allocs.get ⟨m, hm⟩).lot_id = ((fifoOpenLots db sid).get ⟨m, hml⟩).id ∧
      (allocs.get ⟨m, hm⟩).quantity_sold =
        min (qty - allocQtySum (allocs.take m))
          ((fifoOpenLots db sid).get ⟨m, hml⟩).remaining_quantity ∧
      (allocs.get ⟨m, hm⟩).sale_price_pln = p * r ∧
      (allocs.get ⟨m, hm⟩).gain_loss_usd =
        (p - ((fifoOpenLots db sid).get ⟨m, hml⟩).purchase_price_usd) *
          ((allocs.get ⟨m, hm⟩).quantity_sold : ℚ) ∧
      (allocs.get ⟨m, hm⟩).gain_loss_pln =
        (p * r - ((fifoOpenLots db sid).get ⟨m, hml⟩).purchase_price_pln) *
          ((allocs.get ⟨m, hm⟩).quantity_sold : ℚ) ∧
      (allocs.get ⟨m, hm⟩).tax_due_pln =
        max 0 ((allocs.get ⟨m, hm⟩).gain_loss_pln * 0.19) ∧
      0 ≤ (allocs.get ⟨m, hm⟩).tax_due_pln ∧
      ((allocs.get ⟨m, hm⟩).gain_loss_pln ≤ 0 → (allocs.get ⟨m, hm⟩).tax_due_pln = 0) ∧
      ∃ l2 ∈ db2.lots, l2.id = ((fifoOpenLots db sid).get ⟨m, hml⟩).id ∧
        l2.remaining_quantity =
          ((fifoOpenLots db sid).get ⟨m, hml⟩).remaining_quantity -
            (allocs.get ⟨m, hm⟩).quantity_sold ∧
        l2.status =
          (if l2.remaining_quantity = 0 then LotStatus.CLOSED else LotStatus.PARTIAL) := by
  obtain ⟨hne, htot, hallocs, hdb2⟩ := process_sale_fifo_ok hok
  subst hallocs
  subst hdb2
  have hndls : ((fifoOpenLots db sid).map Lot.id).Nodup := fifoOpenLots_nodup_ids sid hnd
  obtain ⟨hml, hpos, heq⟩ := saleWalk_get_spec saleTx dt p r (fifoOpenLots db sid) qty m hm
  refine ⟨hml, ?_, ?_, ?_, ?_, ?_, ?_, ?_, ?_, ?_⟩
  · rw [heq, mkAlloc_lot_id]
  · rw [heq, mkAlloc_quantity_sold]
  · rw [heq]; rfl
  · rw [heq, mkAlloc_quantity_sold]; rfl
  · rw [heq, mkAlloc_quantity_sold]; rfl
  · rw [heq]; rfl
  · rw [heq]
    exact le_max_left 0 _
  · intro hle
    rw [heq] at hle ⊢
    have h019 : (0 : ℚ) ≤ 0.19 := by norm_num
    exact max_eq_left (mul_nonpos_iff.mpr (Or.inr ⟨hle, h019⟩))
  · have hlot : (fifoOpenLots db sid).get ⟨m, hml⟩ ∈ fifoOpenLots db sid :=
      List.get_mem _ _ _
    have hrem := (saleWalk_applyLot_spec saleTx dt p r (fifoOpenLots db sid) qty hndls
      _ hlot).1
    have hstat := (saleWalk_applyLot_spec saleTx dt p r (fifoOpenLots db sid) qty hndls
      _ hlot).2
    have hsum := saleWalk_allocSumFor_get saleTx dt p r (fifoOpenLots db sid) qty m hm
      hml hndls
    have hql : 0 < ((fifoOpenLots db sid).get ⟨m, hml⟩).remaining_quantity :=
      fifoOpenLots_pos _ hlot
    have hqpos :
        0 < ((saleWalk saleTx dt p r qty (fifoOpenLots db sid)).1.get ⟨m, hm⟩).quantity_sold := by
      rw [heq, mkAlloc_quantity_sold]
      exact lt_min hpos hql
    refine ⟨applyLot (saleWalk saleTx dt p r qty (fifoOpenLots db sid)).2
      ((fifoOpenLots db sid).get ⟨m, hml⟩), ?_, ?_, ?_, ?_⟩
    · show _ ∈ applyUpdates db.lots (saleWalk saleTx dt p r qty (fifoOpenLots db sid)).2
      rw [applyUpdates_eq_map]
      exact List.mem_map_of_mem (applyLot _) (mem_fifoOpenLots.mp hlot).1
    · exact applyLot_id _ _
    · rw [hrem, hsum]
    · rw [hstat (by omega), hrem, hsum]

/-- Witness for C4: the spec's scenario. Buying 100 shares at $50.00 with
rate 4.00 and selling 60 at $60.00 with rate 4.10 yields one allocation
with `quantity_sold = 60`, `gain_loss_usd = 600`, `sale_price_pln = 246`,
`gain_loss_pln = 2760`, `tax_due_pln = 524.40`, and leaves the lot at
remaining quantity 40 with status `PARTIAL`. -/
theorem allocation_fields_witness :
    ∃ allocs db2,
      process_sale_fifo dbBuy100 1 2 60 60 92 (41/10) = (Except.ok allocs, db2) ∧
      ∃ hm : 0 < allocs.length,
        (allocs.get ⟨0, hm⟩).quantity_sold = 60 ∧
        (allocs.get ⟨0, hm⟩).gain_loss_usd = 600 ∧
        (allocs.get ⟨0, hm⟩).sale_price_pln = 246 ∧
        (allocs.get ⟨0, hm⟩).gain_loss_pln = 2760 ∧
        (allocs.get ⟨0, hm⟩).tax_due_pln = 524.4 ∧
        ∃ l2 ∈ db2.lots, l2.remaining_quantity = 40 ∧ l2.status = LotStatus.PARTIAL := by
  have h1 : ¬ fifoOpenLots dbBuy100 1 = [] := by decide
  have h2 : ¬ totalRemaining (fifoOpenLots dbBuy100 1) < 60 := by decide
  have hok : process_sale_fifo dbBuy100 1 2 60 60 92 (41/10) =
      (Except.ok (saleWalk 2 92 60 (41/10) 60 (fifoOpenLots dbBuy100 1)).1,
       { dbBuy100 with
          lots := applyUpdates dbBuy100.lots
            (saleWalk 2 92 60 (41/10) 60 (fifoOpenLots dbBuy100 1)).2,
          lot_sales := dbBuy100.lot_sales ++
            (saleWalk 2 92 60 (41/10) 60 (fifoOpenLots dbBuy100 1)).1 }) := by
    simp only [process_sale_fifo, if_neg h1, if_neg h2]
  have hm0 : 0 < (saleWalk 2 92 60 (41/10) 60 (fifoOpenLots dbBuy100 1)).1.length := by
    decide
  refine ⟨_, _, hok, hm0, ?_⟩
  obtain ⟨hml, hallid, hq, hspln, hgusd, hgpln, htax, htax0, hloss, l2, hl2, hlid, hlrem,
    hlstat⟩ := allocation_fields dbBuy100 1 2 60 60 92 (41/10) (by decide) _ _ hok 0 hm0
  have hq60 : ((saleWalk 2 92 60 (41/10) 60 (fifoOpenLots dbBuy100 1)).1.get
      ⟨0, hm0⟩).quantity_sold = 60 := rfl
  have hpusd : ((fifoOpenLots dbBuy100 1).get ⟨0, hml⟩).purchase_price_usd = 50 := rfl
  have hppln : ((fifoOpenLots dbBuy100 1).get ⟨0, hml⟩).purchase_price_pln = 50 * 4 := rfl
  have hrem100 : ((fifoOpenLots dbBuy100 1).get ⟨0, hml⟩).remaining_quantity = 100 := rfl
  have hgusd600 : ((saleWalk 2 92 60 (41/10) 60 (fifoOpenLots dbBuy100 1)).1.get
      ⟨0, hm0⟩).gain_loss_usd = 600 := by
    rw [hgusd, hq60, hpusd]; norm_num
  have hgpln2760 : ((saleWalk 2 92 60 (41/10) 60 (fifoOpenLots dbBuy100 1)).1.get
      ⟨0, hm0⟩).gain_loss_pln = 2760 := by
    rw [hgpln, hq60, hppln]; norm_num
  have hr40 : l2.remaining_quantity = 40 := by
    rw [hlrem, hq60, hrem100]
    decide
  refine ⟨hq60, hgusd600, ?_, hgpln2760, ?_, l2, hl2, hr40, ?_⟩
  · rw [hspln]; norm_num
  · rw [htax, hgpln2760]
    have hv : (2760 : ℚ) * 0.19 = 524.4 := by norm_num
    rw [hv]
    exact max_eq_right (by norm_num)
  · rw [hr40] at hlstat
    simpa using hlstat

/-- The read-only preview walk and the mutating FIFO loop touch the same
lots in the same order with the same quantities. -/
theorem previewWalk_saleWalk_agree (tx : Nat) (dt : Int) (p r : ℚ) (ls : List Lot) :
    ∀ t : Int,
      (previewWalk t ls).map (fun row => (row.lot_id, row.quantity_to_sell)) =
        (saleWalk tx dt p r t ls).1.map (fun a => (a.lot_id, a.quantity_sold)) := by
  induction ls with
  | nil => intro t; rfl
  | cons l rest ih =>
    intro t
    by_cases h : t ≤ 0
    · simp [previewWalk, saleWalk, h]
    · simp only [previewWalk, saleWalk, if_neg h, List.map_cons, mkAlloc_lot_id,
        mkAlloc_quantity_sold, ih]

/-- C6: preview refinement. For a positive quantity within the total
remaining quantity of the security's open lots, `process_sale_fifo`
succeeds and its allocations hit exactly the lots, in the order and with
the per-lot quantities, that `get_fifo_preview` planned. -/
theorem preview_matches_sale (db : DB) (sid saleTx : Nat) (qty : Int) (p : ℚ)
    (dt : Int) (r : ℚ) (hpos : 0 < qty)
    (hle : qty ≤ totalRemaining (fifoOpenLots db sid)) :
    ∃ allocs db2,
      process_sale_fifo db sid saleTx qty p dt r = (Except.ok allocs, db2) ∧
      allocs.map (fun a => (a.lot_id, a.quantity_sold)) =
        (get_fifo_preview db sid qty).map
          (fun row => (row.lot_id, row.quantity_to_sell)) := by
  have hne : ¬ fifoOpenLots db sid = [] := by
    intro h
    rw [h] at hle
    have h0 : totalRemaining ([] : List Lot) = 0 := rfl
    omega
  have h2 : ¬ totalRemaining (fifoOpenLots db sid) < qty := not_lt.mpr hle
  refine ⟨(saleWalk saleTx dt p r qty (fifoOpenLots db sid)).1,
    { db with
        lots := applyUpdates db.lots (saleWalk saleTx dt p r qty (fifoOpenLots db sid)).2,
        lot_sales := db.lot_sales ++ (saleWalk saleTx dt p r qty (fifoOpenLots db sid)).1 },
    ?_, ?_⟩
  · simp only [process_sale_fifo, if_neg hne, if_neg h2]
  · rw [get_fifo_preview]
    exact (previewWalk_saleWalk_agree saleTx dt p r (fifoOpenLots db sid) qty).symm

/-- Witness for C6: previewing then selling 15 shares from two 10-share
lots plans and executes identically. -/
theorem preview_matches_sale_witness :
    0 < (15 : Int) ∧ 15 ≤ totalRemaining (fifoOpenLots dbTwoLots 1) ∧
    (∃ allocs db2,
      process_sale_fifo dbTwoLots 1 3 15 60 10 4 = (Except.ok allocs, db2) ∧
      allocs.map (fun a => (a.lot_id, a.quantity_sold)) =
        (get_fifo_preview dbTwoLots 1 15).map
          (fun row => (row.lot_id, row.quantity_to_sell))) :=
  ⟨by decide, by decide, preview_matches_sale dbTwoLots 1 3 15 60 10 4
    (by decide) (by decide)⟩

theorem totalRemaining_nonneg (ls : List Lot)
    (hpos : ∀ l ∈ ls, 0 < l.remaining_quantity) : 0 ≤ totalRemaining ls := by
  induction ls with
  | nil => exact le_refl 0
  | cons l rest ih =>
    have h1 : 0 < l.remaining_quantity := hpos l (List.mem_cons_self l rest)
    have h2 : 0 ≤ totalRemaining rest :=
      ih (fun l2 hl2 => hpos l2 (List.mem_cons_of_mem l hl2))
    show 0 ≤ (List.map Lot.remaining_quantity (l :: rest)).sum
    rw [List.map_cons, List.sum_cons]
    have : totalRemaining rest = (List.map Lot.remaining_quantity rest).sum := rfl
    omega

/-- When more is requested than all open lots hold, the preview consumes
every lot whole: its planned quantities sum to the total remaining. -/
theorem previewWalk_sum_all (ls : List Lot) :
    ∀ t : Int, (∀ l ∈ ls, 0 < l.remaining_quantity) → totalRemaining ls < t →
      ((previewWalk t ls).map PreviewRow.quantity_to_sell).sum = totalRemaining ls := by
  induction ls with
  | nil => intro t _ _; rfl
  | cons l rest ih =>
    intro t hpos hlt
    have hrem : 0 < l.remaining_quantity := hpos l (List.mem_cons_self l rest)
    have hposr : ∀ l2 ∈ rest, 0 < l2.remaining_quantity :=
      fun l2 hl2 => hpos l2 (List.mem_cons_of_mem l hl2)
    have hrest : 0 ≤ totalRemaining rest := totalRemaining_nonneg rest hposr
    have htot : totalRemaining (l :: rest) = l.remaining_quantity + totalRemaining rest := by
      show (List.map Lot.remaining_quantity (l :: rest)).sum = _
      rw [List.map_cons, List.sum_cons]
      rfl
    rw [htot] at hlt
    have hnle : ¬ t ≤ 0 := by omega
    have hq : min t l.remaining_quantity = l.remaining_quantity := min_eq_right (by omega)
    rw [show previewWalk t (l :: rest) =
        { lot_id := l.id, lot_number := l.lot_number, purchase_date := l.purchase_date,
          quantity_to_sell := min t l.remaining_quantity,
          purchase_price_usd := l.purchase_price_usd,
          purchase_price_pln := l.purchase_price_pln,
          remaining_after_sale := l.remaining_quantity - min t l.remaining_quantity } ::
          previewWalk (t - min t l.remaining_quantity) rest by
      simp [previewWalk, hnle]]
    rw [List.map_cons, List.sum_cons, htot]
    have hih := ih (t - min t l.remaining_quantity) hposr (by rw [hq]; omega)
    rw [hih, hq]

/-- C10: `get_fifo_preview` performs no sufficiency check. When the request
exceeds the total remaining quantity of the open lots, the preview silently
returns a truncated plan summing to the total available, while
`process_sale_fifo` raises an error — the insufficient-shares error
whenever any open lot exists. -/
theorem preview_no_sufficiency_check (db : DB) (sid saleTx : Nat) (qty : Int) (p : ℚ)
    (dt : Int) (r : ℚ)
    (hgt : totalRemaining (fifoOpenLots db sid) < qty) :
    (∃ e, (process_sale_fifo db sid saleTx qty p dt r).1 = Except.error e) ∧
    (fifoOpenLots db sid ≠ [] →
      (process_sale_fifo db sid saleTx qty p dt r).1 =
        Except.error
          (SaleError.insufficientShares (totalRemaining (fifoOpenLots db sid)) qty)) ∧
    ((get_fifo_preview db sid qty).map PreviewRow.quantity_to_sell).sum =
      totalRemaining (fifoOpenLots db sid) ∧
    totalRemaining (fifoOpenLots db sid) < qty := by
  by_cases hne : fifoOpenLots db sid = []
  · refine ⟨⟨SaleError.noOpenLots, ?_⟩, fun h => absurd hne h, ?_, hgt⟩
    · simp [process_sale_fifo, hne]
    · rw [get_fifo_preview, hne]
      rfl
  · refine ⟨⟨SaleError.insufficientShares (totalRemaining (fifoOpenLots db sid)) qty, ?_⟩,
      fun _ => ?_, ?_, hgt⟩
    · simp [process_sale_fifo, hne, hgt]
    · simp [process_sale_fifo, hne, hgt]
    · rw [get_fifo_preview]
      exact previewWalk_sum_all (fifoOpenLots db sid) qty fifoOpenLots_pos hgt

/-- Witness for C10: requesting 25 shares when only 20 remain across two
lots; the preview plans all 20, the sale raises insufficient shares. -/
theorem preview_no_sufficiency_check_witness :
    totalRemaining (fifoOpenLots dbTwoLots 1) < 25 ∧
    ((∃ e, (process_sale_fifo dbTwoLots 1 3 25 60 10 4).1 = Except.error e) ∧
    (fifoOpenLots dbTwoLots 1 ≠ [] →
      (process_sale_fifo dbTwoLots 1 3 25 60 10 4).1 =
        Except.error
          (SaleError.insufficientShares (totalRemaining (fifoOpenLots dbTwoLots 1)) 25)) ∧
    ((get_fifo_preview dbTwoLots 1 25).map PreviewRow.quantity_to_sell).sum =
      totalRemaining (fifoOpenLots dbTwoLots 1) ∧
    totalRemaining (fifoOpenLots dbTwoLots 1) < 25) :=
  ⟨by decide, preview_no_sufficiency_check dbTwoLots 1 3 25 60 10 4 (by decide)⟩

/-- Counterexample to C7 as stated: called with quantity −5 and price −1,
`create_lot_from_purchase` raises nothing and creates a lot row
(`remaining_quantity = −5`), so non-positive input is not rejected before
the state change. -/
theorem create_lot_accepts_nonpositive_counterexample :
    ((create_lot_from_purchase dbEmpty 1 1 (-5) (-1) 0 0 4).2.lots.map
      (fun l => (l.id, l.quantity, l.remaining_quantity))) = [(1, -5, -5)] ∧
    (create_lot_from_purchase dbEmpty 1 1 (-5) (-1) 0 0 4).2.lots ≠ [] := by
  exact ⟨by decide, by decide⟩

/-- C7 (amended): `create_lot_from_purchase` performs no validation at all.
For every input — non-positive quantity or price included — it appends
exactly one lot row with `remaining_quantity = quantity`, status `OPEN`,
the next lot number and PLN prices converted with the supplied rate, and
leaves every other table unchanged. -/
theorem create_lot_no_validation (db : DB) (sid txId : Nat) (qty : Int)
    (priceUsd commissionUsd : ℚ) (purchaseDate : Int) (rate : ℚ) :
    (create_lot_from_purchase db sid txId qty priceUsd commissionUsd purchaseDate
        rate).2.lots =
      db.lots ++
        [{ id := nextId (db.lots.map Lot.id), stock_id := sid, transaction_id := txId,
           lot_number := nextLotNumber db sid, purchase_date := purchaseDate,
           quantity := qty, remaining_quantity := qty,
           purchase_price_usd := priceUsd, purchase_price_pln := priceUsd * rate,
           commission_usd := commissionUsd, commission_pln := commissionUsd * rate,
           usd_pln_rate := rate, status := LotStatus.OPEN }] ∧
    (create_lot_from_purchase db sid txId qty priceUsd commissionUsd purchaseDate
        rate).2.lot_sales = db.lot_sales ∧
    (create_lot_from_purchase db sid txId qty priceUsd commissionUsd purchaseDate
        rate).2.reservations = db.reservations ∧
    (create_lot_from_purchase db sid txId qty priceUsd commissionUsd purchaseDate
        rate).2.transactions = db.transactions ∧
    (create_lot_from_purchase db sid txId qty priceUsd commissionUsd purchaseDate
        rate).1 = nextId (db.lots.map Lot.id) :=
  ⟨rfl, rfl, rfl, rfl, rfl⟩

/-! Facts about the reservation loop. -/

theorem reservedSum_nil (i : Nat) : reservedSum [] i = 0 := rfl

theorem reservedSum_cons (x : Reservation) (rs : List Reservation) (i : Nat) :
    reservedSum (x :: rs) i =
      (if x.lot_id = i then x.reserved_quantity else 0) + reservedSum rs i := by
  unfold reservedSum
  by_cases h : x.lot_id = i <;> simp [List.filter_cons, h]

theorem reservedSum_append (xs ys : List Reservation) (i : Nat) :
    reservedSum (xs ++ ys) i = reservedSum xs i + reservedSum ys i := by
  unfold reservedSum
  rw [List.filter_append, List.map_append, List.sum_append]

theorem reserveWalk_mem (optId : Nat) (rows : List (Lot × Int)) :
    ∀ (t : Int), ∀ x ∈ reserveWalk optId t rows, ∃ pr ∈ rows, x.lot_id = pr.1.id := by
  induction rows with
  | nil => intro t x hx; simp [reserveWalk] at hx
  | cons pr0 rest ih =>
    intro t x hx
    obtain ⟨l0, ar0⟩ := pr0
    by_cases h : t ≤ 0
    · rw [show reserveWalk optId t ((l0, ar0) :: rest) = [] by simp [reserveWalk, h]] at hx
      cases hx
    · rw [show reserveWalk optId t ((l0, ar0) :: rest) =
          ⟨optId, l0.id, min t (l0.remaining_quantity - ar0)⟩ ::
            reserveWalk optId (t - min t (l0.remaining_quantity - ar0)) rest by
        simp [reserveWalk, h]] at hx
      rcases List.mem_cons.mp hx with hx | hx
      · exact ⟨(l0, ar0), List.mem_cons_self _ rest, by rw [hx]⟩
      · obtain ⟨pr2, hpr2, hid⟩ := ih _ x hx
        exact ⟨pr2, List.mem_cons_of_mem _ hpr2, hid⟩

theorem reserveWalk_sum_not_mem (optId : Nat) (rows : List (Lot × Int)) (t : Int)
    (i : Nat) (hi : i ∉ rows.map (fun pr => pr.1.id)) :
    reservedSum (reserveWalk optId t rows) i = 0 := by
  unfold reservedSum
  have h : (reserveWalk optId t rows).filter (fun x => x.lot_id == i) = [] := by
    rw [List.filter_eq_nil_iff]
    intro x hx
    obtain ⟨pr, hpr, hid⟩ := reserveWalk_mem optId rows t x hx
    simp only [beq_iff_eq, hid]
    intro heq
    exact hi (heq ▸ List.mem_map_of_mem (fun pr => pr.1.id) hpr)
  simp [h]

/-- What one reservation loop adds against a row's lot never exceeds the
row's free quantity (clamped at zero when the row had none). -/
theorem reserveWalk_sum_le (optId : Nat) (rows : List (Lot × Int)) :
    ∀ t : Int, ((rows.map (fun pr => pr.1.id)).Nodup) →
      ∀ pr ∈ rows, reservedSum (reserveWalk optId t rows) pr.1.id ≤
        max 0 (pr.1.remaining_quantity - pr.2) := by
  induction rows with
  | nil => intro t _ pr hpr; cases hpr
  | cons pr0 rest ih =>
    intro t hnd pr hpr
    obtain ⟨l0, ar0⟩ := pr0
    rw [List.map_cons, List.nodup_cons] at hnd
    obtain ⟨hid0, hndr⟩ := hnd
    by_cases h : t ≤ 0
    · rw [show reserveWalk optId t ((l0, ar0) :: rest) = [] by simp [reserveWalk, h]]
      rw [reservedSum_nil]
      exact le_max_left 0 _
    · rw [show reserveWalk optId t ((l0, ar0) :: rest) =
          ⟨optId, l0.id, min t (l0.remaining_quantity - ar0)⟩ ::
            reserveWalk optId (t - min t (l0.remaining_quantity - ar0)) rest by
        simp [reserveWalk, h]]
      rcases List.mem_cons.mp hpr with hpr0 | hprr
      · subst hpr0
        rw [reservedSum_cons]
        simp only [if_pos rfl]
        rw [reserveWalk_sum_not_mem optId rest _ l0.id hid0, add_zero]
        exact le_trans (min_le_right _ _) (le_max_right 0 _)
      · have hne : pr.1.id ≠ l0.id := by
          intro heq
          exact hid0 (heq ▸ List.mem_map_of_mem (fun x => x.1.id) hprr)
        rw [reservedSum_cons]
        simp only [if_neg (Ne.symm hne), zero_add]
        exact ih (t - min t (l0.remaining_quantity - ar0)) hndr pr hprr

/-- Membership in the reservation query's rows. -/
theorem mem_reservableLots {db : DB} {sid : Nat} {pr : Lot × Int} :
    pr ∈ reservableLots db sid ↔
      pr.1 ∈ db.lots ∧ pr.1.stock_id = sid ∧ 0 < pr.1.remaining_quantity ∧
      pr.2 = reservedSum db.reservations pr.1.id ∧
      0 < pr.1.remaining_quantity - pr.2 := by
  unfold reservableLots
  rw [(List.perm_insertionSort lotRowLe _).mem_iff, List.mem_filter, List.mem_map]
  constructor
  · rintro ⟨⟨l, hl, heq⟩, hdec⟩
    subst heq
    obtain ⟨h1, h2, h3⟩ := mem_openLotsOf.mp hl
    exact ⟨h1, h2, h3, rfl, by simpa using hdec⟩
  · rintro ⟨h1, h2, h3, h4, h5⟩
    refine ⟨⟨pr.1, mem_openLotsOf.mpr ⟨h1, h2, h3⟩, ?_⟩, by simpa using h5⟩
    obtain ⟨a, b⟩ := pr
    simp only at h4
    rw [h4]

theorem reservableLots_nodup_ids {db : DB} (sid : Nat) (hnd : lotIdsNodup db) :
    ((reservableLots db sid).map (fun pr => pr.1.id)).Nodup := by
  unfold reservableLots
  apply (((List.perm_insertionSort lotRowLe _).map (fun pr => pr.1.id)).nodup_iff).mpr
  have hmm : ((openLotsOf db sid).map
      (fun l => (l, reservedSum db.reservations l.id))).map (fun pr => pr.1.id) =
      (openLotsOf db sid).map Lot.id := by
    rw [List.map_map]
    rfl
  have hsub : ((((openLotsOf db sid).map
      (fun l => (l, reservedSum db.reservations l.id))).filter
        (fun p => decide (0 < p.1.remaining_quantity - p.2))).map
          (fun pr => pr.1.id)).Sublist
      (((openLotsOf db sid).map
        (fun l => (l, reservedSum db.reservations l.id))).map (fun pr => pr.1.id)) :=
    (List.filter_sublist _).map _
  rw [hmm] at hsub
  have hopen : ((openLotsOf db sid).map Lot.id).Nodup :=
    ((List.filter_sublist db.lots).map Lot.id).nodup hnd
  exact hsub.nodup hopen

/-- C5 (amended): reservation exclusivity is preserved by
`reserve_shares_for_option` (which reserves at most the free quantity of
each row), and by `create_lot_from_purchase` for a nonnegative quantity;
`process_sale_fifo` does not preserve it (it consumes lots ignoring
reservations — see the counterexample). -/
theorem reserve_and_create_keep_exclusivity (db : DB) (hnd : lotIdsNodup db)
    (hfk : resFK db) (hinv : resInvariant db) :
    (∀ (optId sid : Nat) (sharesNeeded : Int),
      resInvariant (reserve_shares_for_option db optId sid sharesNeeded).2) ∧
    (∀ (sid txId : Nat) (qty : Int) (priceUsd commissionUsd : ℚ) (purchaseDate : Int)
      (rate : ℚ), 0 ≤ qty →
      resInvariant (create_lot_from_purchase db sid txId qty priceUsd commissionUsd
        purchaseDate rate).2) := by
  constructor
  · intro optId sid sharesNeeded
    by_cases h1 : reservableLots db sid = []
    · simp only [reserve_shares_for_option, h1, if_pos rfl]
      exact hinv
    · by_cases h2 : ((reservableLots db sid).map
          (fun p => p.1.remaining_quantity - p.2)).sum < sharesNeeded
      · simp only [reserve_shares_for_option, if_neg h1, if_pos h2]
        exact hinv
      · simp only [reserve_shares_for_option, if_neg h1, if_neg h2]
        intro l hl
        show reservedSum (db.reservations ++
          reserveWalk optId sharesNeeded (reservableLots db sid)) l.id ≤ _
        rw [reservedSum_append]
        by_cases hmem : l.id ∈ (reservableLots db sid).map (fun pr => pr.1.id)
        · obtain ⟨pr, hpr, hid⟩ := List.mem_map.mp hmem
          obtain ⟨hprdb, _, _, hpr2, hprfree⟩ := mem_reservableLots.mp hpr
          have hprl : pr.1 = l := List.inj_on_of_nodup_map hnd hprdb hl hid
          have hle := reserveWalk_sum_le optId (reservableLots db sid) sharesNeeded
            (reservableLots_nodup_ids sid hnd) pr hpr
          rw [hprl] at hle hprfree hpr2
          rw [hpr2] at hle hprfree
          rw [max_eq_right (le_of_lt hprfree)] at hle
          omega
        · rw [reserveWalk_sum_not_mem optId _ sharesNeeded l.id hmem, add_zero]
          exact hinv l hl
  · intro sid txId qty priceUsd commissionUsd purchaseDate rate hqty
    intro l hl
    simp only [create_lot_from_purchase, List.mem_append, List.mem_singleton] at hl
    rcases hl with hl | hl
    · exact hinv l hl
    · subst hl
      show reservedSum db.reservations (nextId (db.lots.map Lot.id)) ≤ qty
      have hzero : reservedSum db.reservations (nextId (db.lots.map Lot.id)) = 0 := by
        unfold reservedSum
        have hnil : db.reservations.filter
            (fun x => x.lot_id == nextId (db.lots.map Lot.id)) = [] := by
          rw [List.filter_eq_nil_iff]
          intro x hx
          simp only [beq_iff_eq]
          intro heq
          exact nextId_not_mem (db.lots.map Lot.id) (heq ▸ hfk x hx)
        rw [hnil]
        rfl
      omega

/-- Witness for C5's amended theorem at a concrete state: the two-lot
database with a 10-share reservation on lot 1 satisfies the hypotheses. -/
theorem reserve_and_create_keep_exclusivity_witness :
    lotIdsNodup dbReserved ∧ resFK dbReserved ∧ resInvariant dbReserved ∧
    ((∀ (optId sid : Nat) (sharesNeeded : Int),
      resInvariant (reserve_shares_for_option dbReserved optId sid sharesNeeded).2) ∧
    (∀ (sid txId : Nat) (qty : Int) (priceUsd commissionUsd : ℚ) (purchaseDate : Int)
      (rate : ℚ), 0 ≤ qty →
      resInvariant (create_lot_from_purchase dbReserved sid txId qty priceUsd
        commissionUsd purchaseDate rate).2)) :=
  ⟨by decide, by decide, by decide,
    reserve_and_create_keep_exclusivity dbReserved (by decide) (by decide) (by decide)⟩

/-- Counterexample to C5 as stated: in `dbReserved` the invariant holds,
yet `process_sale_fifo` selling 10 shares consumes the fully reserved
lot 1, leaving 10 shares reserved on a lot with 0 remaining. -/
theorem process_sale_breaks_exclusivity_counterexample :
    resInvariant dbReserved ∧ lotIdsNodup dbReserved ∧
    ¬ resInvariant (process_sale_fifo dbReserved 1 99 10 60 2 4).2 :=
  ⟨by decide, by decide, by decide⟩

/-! The sell-transaction flow. -/

theorem sum_filter_pos_of_nonneg (xs : List Int) (h : ∀ x ∈ xs, 0 ≤ x) :
    (xs.filter (fun q => decide (0 < q))).sum = xs.sum := by
  induction xs with
  | nil => rfl
  | cons x xs ih =>
    have hx : 0 ≤ x := h x (List.mem_cons_self x xs)
    have hxs := ih (fun y hy => h y (List.mem_cons_of_mem x hy))
    by_cases hpos : 0 < x
    · rw [List.filter_cons_of_pos (by simpa using hpos), List.sum_cons, List.sum_cons, hxs]
    · have hx0 : x = 0 := by omega
      rw [List.filter_cons_of_neg (by simpa using hpos), List.sum_cons, hxs, hx0, zero_add]

/-- Under the reservation-exclusivity invariant on the open lots, the code's
clamped `total_available` agrees with the spec's sellable quantity. -/
theorem sellableTotal_eq_specSellable (db : DB) (sid : Nat)
    (hinv : ∀ l ∈ db.lots, l.stock_id = sid → 0 < l.remaining_quantity →
      reservedSum db.reservations l.id ≤ l.remaining_quantity) :
    sellableTotal db sid = specSellable db sid := by
  unfold sellableTotal specSellable
  apply sum_filter_pos_of_nonneg
  intro x hx
  obtain ⟨l, hl, hlx⟩ := List.mem_map.mp hx
  obtain ⟨hldb, hlsid, hlrem⟩ := mem_fifoOpenLots.mp hl
  have := hinv l hldb hlsid hlrem
  rw [← hlx]
  unfold availableForSale
  omega

/-- C3 (amended): under the reservation-exclusivity invariant on the open
lots of the security, a sell request for more than the sellable quantity
(total remaining of open lots minus the reservations on them) fails with
the insufficient-shares error carrying the actual sellable amount, and the
database — lots, sale allocations, reservations and transactions — is left
exactly as it was. Without that invariant the code's per-lot clamping can
accept such a request (see the counterexample). -/
theorem sell_exceeding_sellable_rejected (db : DB) (sid : Nat) (qty : Int)
    (p : ℚ) (dt : Int) (r : ℚ)
    (hinv : ∀ l ∈ db.lots, l.stock_id = sid → 0 < l.remaining_quantity →
      reservedSum db.reservations l.id ≤ l.remaining_quantity)
    (hgt : specSellable db sid < qty) :
    add_sell_transaction db sid qty p dt r =
      (Except.error (SaleError.insufficientShares (specSellable db sid) qty), db) := by
  have hsell : sellableTotal db sid = specSellable db sid :=
    sellableTotal_eq_specSellable db sid hinv
  have hcan : check_can_sell
      { db with transactions :=
          db.transactions ++
            [({ id := nextId (db.transactions.map StockTx.id), stock_id := sid,
                quantity := qty } : StockTx)] }
      sid qty = false := by
    unfold check_can_sell
    apply decide_eq_false
    intro hle
    have hs2 : sellableTotal
        { db with transactions :=
            db.transactions ++
              [({ id := nextId (db.transactions.map StockTx.id), stock_id := sid,
                  quantity := qty } : StockTx)] }
        sid = sellableTotal db sid := rfl
    rw [hs2, hsell] at hle
    omega
  have hfilter : (db.transactions ++
      [({ id := nextId (db.transactions.map StockTx.id), stock_id := sid,
          quantity := qty } : StockTx)]).filter
      (fun t => t.id != nextId (db.transactions.map StockTx.id)) = db.transactions := by
    rw [List.filter_append]
    have h1 : db.transactions.filter
        (fun t => t.id != nextId (db.transactions.map StockTx.id)) = db.transactions := by
      rw [List.filter_eq_self]
      intro t ht
      have hmem : t.id ∈ db.transactions.map StockTx.id := List.mem_map_of_mem StockTx.id ht
      have := le_foldr_max (db.transactions.map StockTx.id) t.id hmem
      simp only [bne_iff_ne, ne_eq]
      unfold nextId
      omega
    rw [h1]
    simp
  simp only [add_sell_transaction]
  rw [hcan]
  simp only [Bool.false_eq_true, if_false]
  rw [hfilter]
  have hs3 : sellableTotal
      { db with transactions :=
          db.transactions ++
            [({ id := nextId (db.transactions.map StockTx.id), stock_id := sid,
                quantity := qty } : StockTx)] }
      sid = sellableTotal db sid := rfl
  rw [hs3, hsell]

/-- Witness for C3's amended theorem: in `dbReserved` (10 of 20 shares
reserved) a request for 11 > 10 sellable is rejected with the sale state
untouched. -/
theorem sell_exceeding_sellable_rejected_witness :
    (∀ l ∈ dbReserved.lots, l.stock_id = 1 → 0 < l.remaining_quantity →
      reservedSum dbReserved.reservations l.id ≤ l.remaining_quantity) ∧
    specSellable dbReserved 1 < 11 ∧
    add_sell_transaction dbReserved 1 11 60 2 4 =
      (Except.error (SaleError.insufficientShares (specSellable dbReserved 1) 11),
       dbReserved) :=
  ⟨by decide, by decide,
    sell_exceeding_sellable_rejected dbReserved 1 11 60 2 4 (by decide) (by decide)⟩

/-- Counterexample to C3 as stated: in the reachable state `dbOverReserved`
(lot 1 over-reserved by the sale of C5's counterexample) only 5 shares are
sellable by the spec's definition, yet a request for 7 is accepted by the
code — the insufficiency check clamps each lot's availability at zero. -/
theorem sell_exceeding_sellable_accepted_counterexample :
    specSellable dbOverReserved 1 = 5 ∧ (5 : Int) < 7 ∧
    exceptOk (add_sell_transaction dbOverReserved 1 7 60 3 4).1 = true :=
  ⟨by decide, by decide, by decide⟩

/-! The exchange-rate provider. -/

theorem prevWalk_zero (src : Int → SrcResp) (cur : String) (cache : RateCache) (d : Int) :
    prevWorkingDayWalk src cur cache 0 d = (none, cache) := rfl

theorem prevWalk_succ_weekend (src : Int → SrcResp) (cur : String) (cache : RateCache)
    (n : Nat) (d : Int) (h : 5 ≤ (d - 1) % 7) :
    prevWorkingDayWalk src cur cache (n + 1) d = prevWorkingDayWalk src cur cache n (d - 1) := by
  simp [prevWorkingDayWalk, h]

theorem prevWalk_succ_cachehit (src : Int → SrcResp) (cur : String) (cache : RateCache)
    (n : Nat) (d : Int) (h1 : ¬ 5 ≤ (d - 1) % 7)
    (h2 : truthy (getCachedRate cache cur (d - 1)) = true) :
    prevWorkingDayWalk src cur cache (n + 1) d = (getCachedRate cache cur (d - 1), cache) := by
  simp [prevWorkingDayWalk, h1, h2]

theorem prevWalk_succ_srcok (src : Int → SrcResp) (cur : String) (cache : RateCache)
    (n : Nat) (d : Int) (r : ℚ) (h1 : ¬ 5 ≤ (d - 1) % 7)
    (h2 : truthy (getCachedRate cache cur (d - 1)) = false)
    (h3 : src (d - 1) = SrcResp.ok r) :
    prevWorkingDayWalk src cur cache (n + 1) d =
      (some r, cacheRate cache (pairOf cur) r (d - 1)) := by
  simp [prevWorkingDayWalk, h1, h2, h3]

theorem prevWalk_succ_miss (src : Int → SrcResp) (cur : String) (cache : RateCache)
    (n : Nat) (d : Int) (h1 : ¬ 5 ≤ (d - 1) % 7)
    (h2 : truthy (getCachedRate cache cur (d - 1)) = false)
    (h3 : ∀ r, src (d - 1) ≠ SrcResp.ok r) :
    prevWorkingDayWalk src cur cache (n + 1) d = prevWorkingDayWalk src cur cache n (d - 1) := by
  cases hs : src (d - 1) with
  | ok r => exact absurd hs (h3 r)
  | notFound => simp [prevWorkingDayWalk, h1, h2, hs]
  | connectionError => simp [prevWorkingDayWalk, h1, h2, hs]
  | otherStatus => simp [prevWorkingDayWalk, h1, h2, hs]

theorem find?_filter_of_imp {α : Type} (l : List α) (p q : α → Bool)
    (h : ∀ a, p a = true → q a = true) : (l.filter q).find? p = l.find? p := by
  induction l with
  | nil => rfl
  | cons a l ih =>
    by_cases hq : q a = true
    · rw [List.filter_cons_of_pos hq]
      by_cases hp : p a = true
      · rw [List.find?_cons_of_pos _ hp, List.find?_cons_of_pos _ hp]
      · have hp2 : ¬ p a := by simpa using hp
        rw [List.find?_cons_of_neg _ hp2, List.find?_cons_of_neg _ hp2, ih]
    · have hq2 : ¬ q a := by simpa using hq
      rw [List.filter_cons_of_neg (by simpa using hq2), ih]
      have hp2 : ¬ p a := fun hpa => hq2 (h a hpa)
      rw [List.find?_cons_of_neg _ hp2]

/-- Caching a rate under one date leaves the cache lookups of every other
date unchanged. -/
theorem getCachedRate_cacheRate_ne (cache : RateCache) (cur : String) (r : ℚ)
    (d1 d : Int) (hne : d1 ≠ d) :
    getCachedRate (cacheRate cache (pairOf cur) r d1) cur d = getCachedRate cache cur d := by
  unfold getCachedRate cacheRate
  have hhead : ¬ (((⟨pairOf cur, r, d1⟩ : RateEntry).currency_pair == pairOf cur &&
      (⟨pairOf cur, r, d1⟩ : RateEntry).date == d) = true) := by
    simp [hne]
  have hstep : List.find? (fun e : RateEntry => e.currency_pair == pairOf cur && e.date == d)
      ((⟨pairOf cur, r, d1⟩ : RateEntry) ::
        cache.filter (fun e => !(e.currency_pair == pairOf cur && e.date == d1))) =
      List.find? (fun e : RateEntry => e.currency_pair == pairOf cur && e.date == d)
        (cache.filter (fun e => !(e.currency_pair == pairOf cur && e.date == d1))) :=
    List.find?_cons_of_neg _ hhead
  rw [hstep, find?_filter_of_imp]
  intro e he
  simp only [Bool.and_eq_true, beq_iff_eq] at he
  simp [he.1, he.2, Ne.symm hne]

/-- Soundness of the backward walk: a returned rate comes from the first
working day strictly before the requested date (within the step bound) on
which the cache (with Python truthiness) or the source had a rate, and is
cached under that day exactly when it came from the source; with no find,
the cache is untouched. -/
theorem prevWalk_spec (src : Int → SrcResp) (cur : String) (cache : RateCache) :
    ∀ (n : Nat) (d : Int),
      ((prevWorkingDayWalk src cur cache n d).1 = none →
        (prevWorkingDayWalk src cur cache n d).2 = cache) ∧
      (∀ r, (prevWorkingDayWalk src cur cache n d).1 = some r →
        ∃ d1, d - n ≤ d1 ∧ d1 < d ∧ d1 % 7 < 5 ∧
          (∀ e, d1 < e → e < d → e % 7 < 5 →
            truthy (getCachedRate cache cur e) = false ∧ ∀ q, src e ≠ SrcResp.ok q) ∧
          ((truthy (getCachedRate cache cur d1) = true ∧
              getCachedRate cache cur d1 = some r ∧
              (prevWorkingDayWalk src cur cache n d).2 = cache) ∨
           (truthy (getCachedRate cache cur d1) = false ∧ src d1 = SrcResp.ok r ∧
              (prevWorkingDayWalk src cur cache n d).2 =
                cacheRate cache (pairOf cur) r d1))) := by
  intro n
  induction n with
  | zero =>
    intro d
    refine ⟨fun _ => rfl, fun r hr => ?_⟩
    rw [prevWalk_zero] at hr
    cases hr
  | succ n ih =>
    intro d
    by_cases hw : 5 ≤ (d - 1) % 7
    · rw [prevWalk_succ_weekend src cur cache n d hw]
      refine ⟨(ih (d - 1)).1, fun r hr => ?_⟩
      obtain ⟨d1, ha, hb, hc, hgap, hcase⟩ := (ih (d - 1)).2 r hr
      refine ⟨d1, by omega, by omega, hc, ?_, hcase⟩
      intro e he1 he2 he3
      by_cases hee : e = d - 1
      · subst hee
        omega
      · exact hgap e he1 (by omega) he3
    · by_cases hch : truthy (getCachedRate cache cur (d - 1)) = true
      · rw [prevWalk_succ_cachehit src cur cache n d hw hch]
        refine ⟨fun h => rfl, fun r hr => ?_⟩
        refine ⟨d - 1, by omega, by omega, by omega, ?_, Or.inl ⟨hch, hr, rfl⟩⟩
        intro e he1 he2
        omega
      · have hch2 : truthy (getCachedRate cache cur (d - 1)) = false := by
          simpa using hch
        cases hs : src (d - 1) with
        | ok r0 =>
          rw [prevWalk_succ_srcok src cur cache n d r0 hw hch2 hs]
          refine ⟨fun h => Option.noConfusion h, fun r hr => ?_⟩
          have hrr : r0 = r := by
            simpa using hr
          subst hrr
          refine ⟨d - 1, by omega, by omega, by omega, ?_, Or.inr ⟨hch2, hs, rfl⟩⟩
          intro e he1 he2
          omega
        | notFound =>
          rw [prevWalk_succ_miss src cur cache n d hw hch2 (by intro q hq; rw [hs] at hq; cases hq)]
          refine ⟨(ih (d - 1)).1, fun r hr => ?_⟩
          obtain ⟨d1, ha, hb, hc, hgap, hcase⟩ := (ih (d - 1)).2 r hr
          refine ⟨d1, by omega, by omega, hc, ?_, hcase⟩
          intro e he1 he2 he3
          by_cases hee : e = d - 1
          · subst hee
            exact ⟨hch2, by intro q hq; rw [hs] at hq; cases hq⟩
          · exact hgap e he1 (by omega) he3
        | connectionError =>
          rw [prevWalk_succ_miss src cur cache n d hw hch2 (by intro q hq; rw [hs] at hq; cases hq)]
          refine ⟨(ih (d - 1)).1, fun r hr => ?_⟩
          obtain ⟨d1, ha, hb, hc, hgap, hcase⟩ := (ih (d - 1)).2 r hr
          refine ⟨d1, by omega, by omega, hc, ?_, hcase⟩
          intro e he1 he2 he3
          by_cases hee : e = d - 1
          · subst hee
            exact ⟨hch2, by intro q hq; rw [hs] at hq; cases hq⟩
          · exact hgap e he1 (by omega) he3
        | otherStatus =>
          rw [prevWalk_succ_miss src cur cache n d hw hch2 (by intro q hq; rw [hs] at hq; cases hq)]
          refine ⟨(ih (d - 1)).1, fun r hr => ?_⟩
          obtain ⟨d1, ha, hb, hc, hgap, hcase⟩ := (ih (d - 1)).2 r hr
          refine ⟨d1, by omega, by omega, hc, ?_, hcase⟩
          intro e he1 he2 he3
          by_cases hee : e = d - 1
          · subst hee
            exact ⟨hch2, by intro q hq; rw [hs] at hq; cases hq⟩
          · exact hgap e he1 (by omega) he3

/-- Completeness of the backward walk: with no rate to find on any working
day in range, the walk returns none and leaves the cache untouched. -/
theorem prevWalk_none (src : Int → SrcResp) (cur : String) (cache : RateCache) :
    ∀ (n : Nat) (d : Int),
      (∀ e, d - n ≤ e → e < d → e % 7 < 5 →
        truthy (getCachedRate cache cur e) = false ∧ ∀ q, src e ≠ SrcResp.ok q) →
      prevWorkingDayWalk src cur cache n d = (none, cache) := by
  intro n
  induction n with
  | zero => intro d _; rfl
  | succ n ih =>
    intro d hgap
    by_cases hw : 5 ≤ (d - 1) % 7
    · rw [prevWalk_succ_weekend src cur cache n d hw]
      exact ih (d - 1) (fun e h1 h2 h3 => hgap e (by omega) (by omega) h3)
    · have hd1 := hgap (d - 1) (by omega) (by omega) (by omega)
      rw [prevWalk_succ_miss src cur cache n d hw hd1.1 hd1.2]
      exact ih (d - 1) (fun e h1 h2 h3 => hgap e (by omega) (by omega) h3)

theorem foldl_pickMax_mem (es : List RateEntry) :
    ∀ a : RateEntry,
      es.foldl (fun best e2 => if best.date < e2.date then e2 else best) a = a ∨
      es.foldl (fun best e2 => if best.date < e2.date then e2 else best) a ∈ es := by
  induction es with
  | nil => intro a; exact Or.inl rfl
  | cons e es ih =>
    intro a
    rw [List.foldl_cons]
    by_cases h : a.date < e.date
    · rw [if_pos h]
      rcases ih e with h2 | h2
      · exact Or.inr (by rw [h2]; exact List.mem_cons_self e es)
      · exact Or.inr (List.mem_cons_of_mem e h2)
    · rw [if_neg h]
      rcases ih a with h2 | h2
      · exact Or.inl h2
      · exact Or.inr (List.mem_cons_of_mem e h2)

theorem foldl_pickMax_le (es : List RateEntry) :
    ∀ a : RateEntry,
      a.date ≤ (es.foldl (fun best e2 => if best.date < e2.date then e2 else best) a).date ∧
      ∀ x ∈ es,
        x.date ≤ (es.foldl (fun best e2 => if best.date < e2.date then e2 else best) a).date := by
  induction es with
  | nil => intro a; exact ⟨le_refl _, fun x hx => absurd hx (List.not_mem_nil x)⟩
  | cons e es ih =>
    intro a
    rw [List.foldl_cons]
    by_cases h : a.date < e.date
    · rw [if_pos h]
      obtain ⟨h1, h2⟩ := ih e
      refine ⟨by omega, fun x hx => ?_⟩
      rcases List.mem_cons.mp hx with hx | hx
      · rw [hx]; exact h1
      · exact h2 x hx
    · rw [if_neg h]
      obtain ⟨h1, h2⟩ := ih a
      refine ⟨h1, fun x hx => ?_⟩
      rcases List.mem_cons.mp hx with hx | hx
      · rw [hx]; omega
      · exact h2 x hx

/-- A rate returned by `_get_last_available_rate` is that of a cached entry
for the pair whose date is the greatest at or before the requested date. -/
theorem lastAvailableRate_some (cache : RateCache) (cur : String) (d : Int) (r : ℚ)
    (h : lastAvailableRate cache cur d = some r) :
    ∃ e ∈ cache, e.currency_pair = pairOf cur ∧ e.date ≤ d ∧ e.rate = r ∧
      ∀ e2 ∈ cache, e2.currency_pair = pairOf cur → e2.date ≤ d → e2.date ≤ e.date := by
  unfold lastAvailableRate at h
  cases hf : cache.filter (fun e => e.currency_pair == pairOf cur && decide (e.date ≤ d)) with
  | nil => rw [hf] at h; cases h
  | cons e0 es =>
    rw [hf] at h
    have hr : (es.foldl (fun best e2 => if best.date < e2.date then e2 else best) e0).rate
        = r := by
      simpa using h
    have hbmem : (es.foldl (fun best e2 => if best.date < e2.date then e2 else best) e0) ∈
        e0 :: es := by
      rcases foldl_pickMax_mem es e0 with h2 | h2
      · rw [h2]; exact List.mem_cons_self e0 es
      · exact List.mem_cons_of_mem e0 h2
    rw [← hf] at hbmem
    obtain ⟨hbc, hbp⟩ := List.mem_filter.mp hbmem
    simp only [Bool.and_eq_true, beq_iff_eq, decide_eq_true_eq] at hbp
    refine ⟨_, hbc, hbp.1, hbp.2, hr, ?_⟩
    intro e2 he2 hp2 hd2
    have he2f : e2 ∈ cache.filter
        (fun e => e.currency_pair == pairOf cur && decide (e.date ≤ d)) :=
      List.mem_filter.mpr ⟨he2, by simp [hp2, hd2]⟩
    rw [hf] at he2f
    rcases List.mem_cons.mp he2f with he2e | he2es
    · rw [he2e]
      exact (foldl_pickMax_le es e0).1
    · exact (foldl_pickMax_le es e0).2 e2 he2es

theorem lastAvailableRate_exists (cache : RateCache) (cur : String) (d : Int)
    (h : ∃ e ∈ cache, e.currency_pair = pairOf cur ∧ e.date ≤ d) :
    ∃ r, lastAvailableRate cache cur d = some r := by
  obtain ⟨e, he, hp, hd⟩ := h
  have hmem : e ∈ cache.filter
      (fun e => e.currency_pair == pairOf cur && decide (e.date ≤ d)) :=
    List.mem_filter.mpr ⟨he, by simp [hp, hd]⟩
  unfold lastAvailableRate
  cases hf : cache.filter (fun e => e.currency_pair == pairOf cur && decide (e.date ≤ d)) with
  | nil => rw [hf] at hmem; cases hmem
  | cons e0 es => exact ⟨_, rfl⟩

/-- C8: on a 404 for the requested date, `get_exchange_rate` runs the
backward walk — at most 10 calendar days, skipping weekends, cache then
source at each day. The first rate found is returned; a source hit is
cached under the date it was found for, never under the requested date, so
the requested date's cache entry is exactly what it was and a subsequent
lookup for it still misses. -/
theorem rate_404_walks_backward (src : Int → SrcResp) (cache : RateCache)
    (cur : String) (d : Int)
    (h1 : truthy (getCachedRate cache cur d) = false)
    (h2 : src d = SrcResp.notFound) :
    get_exchange_rate src cache cur d = prevWorkingDayWalk src cur cache 10 d ∧
    getCachedRate (get_exchange_rate src cache cur d).2 cur d = getCachedRate cache cur d ∧
    truthy (getCachedRate (get_exchange_rate src cache cur d).2 cur d) = false ∧
    (∀ r, (get_exchange_rate src cache cur d).1 = some r →
      ∃ d1, d - 10 ≤ d1 ∧ d1 < d ∧ d1 % 7 < 5 ∧
        (∀ e, d1 < e → e < d → e % 7 < 5 →
          truthy (getCachedRate cache cur e) = false ∧ ∀ q, src e ≠ SrcResp.ok q) ∧
        ((truthy (getCachedRate cache cur d1) = true ∧
            getCachedRate cache cur d1 = some r ∧
            (get_exchange_rate src cache cur d).2 = cache) ∨
         (truthy (getCachedRate cache cur d1) = false ∧ src d1 = SrcResp.ok r ∧
            (get_exchange_rate src cache cur d).2 = cacheRate cache (pairOf cur) r d1))) := by
  have heq : get_exchange_rate src cache cur d = prevWorkingDayWalk src cur cache 10 d := by
    simp only [get_exchange_rate]
    rw [h1, h2]
    simp
  have hcache : getCachedRate (get_exchange_rate src cache cur d).2 cur d =
      getCachedRate cache cur d := by
    rw [heq]
    cases hres : (prevWorkingDayWalk src cur cache 10 d).1 with
    | none => rw [(prevWalk_spec src cur cache 10 d).1 hres]
    | some r =>
      obtain ⟨d1, ha, hb, hc, hgap, hcase⟩ := (prevWalk_spec src cur cache 10 d).2 r hres
      rcases hcase with ⟨_, _, hcc⟩ | ⟨_, _, hcc⟩
      · rw [hcc]
      · rw [hcc]
        exact getCachedRate_cacheRate_ne cache cur r d1 d (by omega)
  refine ⟨heq, hcache, by rw [hcache]; exact h1, ?_⟩
  intro r hr
  rw [heq] at hr
  obtain ⟨d1, ha, hb, hc, hgap, hcase⟩ := (prevWalk_spec src cur cache 10 d).2 r hr
  refine ⟨d1, ha, hb, hc, hgap, ?_⟩
  rw [heq]
  exact hcase

/-- Witness for C8: day 3 (a Thursday) has no source data; the walk finds
day 2's rate from the source, returns it, caches it under day 2, and a
lookup for day 3 still misses. -/
theorem rate_404_walks_backward_witness :
    truthy (getCachedRate [] "USD" 3) = false ∧ srcDay2 3 = SrcResp.notFound ∧
    (get_exchange_rate srcDay2 [] "USD" 3 = prevWorkingDayWalk srcDay2 "USD" [] 10 3 ∧
     getCachedRate (get_exchange_rate srcDay2 [] "USD" 3).2 "USD" 3 =
       getCachedRate [] "USD" 3 ∧
     truthy (getCachedRate (get_exchange_rate srcDay2 [] "USD" 3).2 "USD" 3) = false ∧
     (∀ r, (get_exchange_rate srcDay2 [] "USD" 3).1 = some r →
       ∃ d1, (3 : Int) - 10 ≤ d1 ∧ d1 < 3 ∧ d1 % 7 < 5 ∧
         (∀ e, d1 < e → e < 3 → e % 7 < 5 →
           truthy (getCachedRate [] "USD" e) = false ∧ ∀ q, srcDay2 e ≠ SrcResp.ok q) ∧
         ((truthy (getCachedRate [] "USD" d1) = true ∧
             getCachedRate [] "USD" d1 = some r ∧
             (get_exchange_rate srcDay2 [] "USD" 3).2 = []) ∨
          (truthy (getCachedRate [] "USD" d1) = false ∧ srcDay2 d1 = SrcResp.ok r ∧
             (get_exchange_rate srcDay2 [] "USD" 3).2 =
               cacheRate [] (pairOf "USD") r d1)))) ∧
    (get_exchange_rate srcDay2 [] "USD" 3).1 = some 4 :=
  ⟨by decide, by decide,
    rate_404_walks_backward srcDay2 [] "USD" 3 (by decide) (by decide), by decide⟩

/-- C9: with the cache missing the requested date, a connection error makes
`get_exchange_rate` return the most recent cached rate at or before the
requested date (one exists exactly when some entry for the pair is dated at
or before it); and when the live fetch cannot succeed, no working day in
the walk's range has a rate, and no cached rate lies at or before the date,
the call returns no rate at all. -/
theorem rate_error_fallbacks (src : Int → SrcResp) (cache : RateCache)
    (cur : String) (d : Int)
    (h1 : truthy (getCachedRate cache cur d) = false) :
    (src d = SrcResp.connectionError →
      (get_exchange_rate src cache cur d).1 = lastAvailableRate cache cur d ∧
      (get_exchange_rate src cache cur d).2 = cache ∧
      ((∃ e ∈ cache, e.currency_pair = pairOf cur ∧ e.date ≤ d) →
        ∃ r, lastAvailableRate cache cur d = some r) ∧
      (∀ r, lastAvailableRate cache cur d = some r →
        ∃ e ∈ cache, e.currency_pair = pairOf cur ∧ e.date ≤ d ∧ e.rate = r ∧
          ∀ e2 ∈ cache, e2.currency_pair = pairOf cur → e2.date ≤ d → e2.date ≤ e.date)) ∧
    ((∀ q, src d ≠ SrcResp.ok q) →
      (∀ e, d - 10 ≤ e → e < d → e % 7 < 5 →
        truthy (getCachedRate cache cur e) = false ∧ ∀ q, src e ≠ SrcResp.ok q) →
      lastAvailableRate cache cur d = none →
      (get_exchange_rate src cache cur d).1 = none) := by
  constructor
  · intro hconn
    have heq : get_exchange_rate src cache cur d = (lastAvailableRate cache cur d, cache) := by
      simp only [get_exchange_rate]
      rw [h1, hconn]
      simp
    rw [heq]
    exact ⟨rfl, rfl, lastAvailableRate_exists cache cur d,
      fun r hr => lastAvailableRate_some cache cur d r hr⟩
  · intro hok hgap hlast
    cases hs : src d with
    | ok q => exact absurd hs (hok q)
    | notFound =>
      have heq : get_exchange_rate src cache cur d = prevWorkingDayWalk src cur cache 10 d := by
        simp only [get_exchange_rate]
        rw [h1, hs]
        simp
      rw [heq, prevWalk_none src cur cache 10 d hgap]
    | connectionError =>
      have heq : get_exchange_rate src cache cur d = (lastAvailableRate cache cur d, cache) := by
        simp only [get_exchange_rate]
        rw [h1, hs]
        simp
      rw [heq, hlast]
    | otherStatus =>
      simp only [get_exchange_rate]
      rw [h1, hs]
      simp

/-- Witness for C9: with the network down, the most recent cached rate (day
1, at or before the requested day 3) is returned; with an empty cache the
call returns no rate. -/
theorem rate_error_fallbacks_witness :
    truthy (getCachedRate cacheDay1 "USD" 3) = false ∧
    srcDown 3 = SrcResp.connectionError ∧
    (get_exchange_rate srcDown cacheDay1 "USD" 3).1 = lastAvailableRate cacheDay1 "USD" 3 ∧
    lastAvailableRate cacheDay1 "USD" 3 = some 4 ∧
    (get_exchange_rate srcDown ([] : RateCache) "USD" 3).1 = none := by
  have hmain := rate_error_fallbacks srcDown cacheDay1 "USD" 3 (by decide)
  have hempty := rate_error_fallbacks srcDown ([] : RateCache) "USD" 3 (by decide)
  refine ⟨by decide, by decide, (hmain.1 (by decide)).1, by decide, ?_⟩
  refine hempty.2 (by intro q hq; exact SrcResp.noConfusion hq) ?_ (by decide)
  intro e he1 he2 he3
  exact ⟨rfl, fun q hq => SrcResp.noConfusion hq⟩

end CC
